import Mathlib

/-!
Verification development for the BPL_YEAST_COB_Batch exploration scripts
(`BPL_YEAST_COB_Batch_explore.py`, pyfmi backend, and
`BPL_YEAST_COB_Batch_fmpy_explore.py`, fmpy backend).

The scripts are orchestration glue around an opaque compiled simulation unit
(an FMU).  This file gives a shallow embedding of the scripts' own logic:
Python dictionaries become insertion-ordered association lists with Python's
update semantics, the opaque FMU/solver becomes an explicit oracle parameter,
printed error messages become a list of structured `Msg` events, and a
propagating Python exception becomes an `exn` flag on the result (with the
partially mutated global state kept, as in Python).  Numeric values are
modelled as rationals; `np.nan` is the distinguished token `Value.nan` (the
scripts only ever compare a stored value against the `np.nan` singleton,
`None` and the empty string, and `x in [np.nan, None, '']` matches the
`np.nan` object by identity).
-/

set_option maxRecDepth 8000

namespace BPLExplore

/-- Python values stored in the scripts' dictionaries: numbers, strings,
`None`, and the `np.nan` token. -/
inductive Value
  | num (q : ℚ)
  | str (s : String)
  | none
  | nan
deriving DecidableEq

/-- A stored value counts as missing when it is the `np.nan` token, `None` or
the empty string (the pyfmi script's test `parDict[key] in [np.nan, None, '']`). -/
def isMissing : Value → Bool
  | Value.nan => true
  | Value.none => true
  | Value.str s => s = ""
  | _ => false

/-- Comparison operator of one `parCheck` requirement string. -/
inductive Cmp
  | gt
  | ge
deriving DecidableEq

/-- One entry of the `parCheck` requirement list, a string of the form
`parValue[key] > bound` or `parValue[key] >= bound` that the scripts `eval`
over the parameter store. -/
structure Check where
  key : String
  cmp : Cmp
  bound : ℚ
deriving DecidableEq

/-- The messages the scripts print; each constructor stands for one `print`
call site (its arguments carry the varying parts of the printed text). -/
inductive Msg
  | unknownPar (key : String)
  | notInitialValue (key : String)
  | checkFailed (c : Check)
  | valueMissing (key : String)
  | contBeforeInit
  | tooManyStates
  | plotTypeNotCorrect
  | modeNotCorrect
  | noSimulationDone
deriving DecidableEq

/-! ### Python dictionaries as insertion-ordered association lists -/

/-- A Python dictionary over string keys. -/
abbrev Dict (α : Type) := List (String × α)

/-- `d[k]` lookup: the first entry with the key (keys are unique in every
dictionary the scripts build, so first = only). -/
def dget {α : Type} (d : Dict α) (k : String) : Option α :=
  (d.find? (fun p => p.1 = k)).map (fun p => p.2)

/-- `k in d`. -/
def dhas {α : Type} (d : Dict α) (k : String) : Bool :=
  d.any (fun p => p.1 = k)

/-- `d[k] = v`: replace in place when the key exists (keeping the original
insertion position, as Python dictionaries do), append at the end
otherwise. -/
def dset {α : Type} : Dict α → String → α → Dict α
  | [], k, v => [(k, v)]
  | p :: rest, k, v => if p.1 = k then (k, v) :: rest else p :: dset rest k v

/-- `d.update(e)`, applied entry by entry in `e`'s order. -/
def dupdate {α : Type} (d : Dict α) (e : List (String × α)) : Dict α :=
  e.foldl (fun acc p => dset acc p.1 p.2) d

/-- `del d[k]` (total here; the scripts only delete keys that are present). -/
def derase {α : Type} (d : Dict α) (k : String) : Dict α :=
  d.filter (fun p => ¬ p.1 = k)

/-- `list(d.keys())`. -/
def dkeys {α : Type} (d : Dict α) : List String := d.map (fun p => p.1)

/-- `dict(pairs)`: build a dictionary from a pair list, later pairs
overriding earlier ones in place. -/
def dfromPairs {α : Type} (l : List (String × α)) : Dict α :=
  dupdate [] l

/-! ### The application dictionaries (identical in both scripts) -/

/-- Default parameter dictionary `parDict` (pyfmi) / `parValue` (fmpy). -/
def parValueD : Dict Value :=
  [("V_start", Value.num (9/2)), ("VX_start", Value.num 1),
   ("VG_start", Value.num 10), ("VE_start", Value.num 0),
   ("mum", Value.num 0), ("qGr", Value.num 0),
   ("qEr", Value.num 0), ("qO2", Value.num 0)]

/-- The `parLocation` dictionary (the extra key `mu` is only for `describe`). -/
def parLocationD : Dict String :=
  [("V_start", "bioreactor.V_start"), ("VX_start", "bioreactor.m_start[1]"),
   ("VG_start", "bioreactor.m_start[2]"), ("VE_start", "bioreactor.m_start[3]"),
   ("mum", "bioreactor.culture.mum"), ("qGr", "bioreactor.culture.qGr"),
   ("qEr", "bioreactor.culture.qEr"), ("qO2", "bioreactor.culture.qO2"),
   ("mu", "bioreactor.culture.mu")]

/-- `eval` of one `parCheck` requirement over the (already updated) store.
`Option.none` models a raised Python exception (`KeyError` for a missing key,
`TypeError` when comparing `None` or a string against a number); comparing
NaN yields `False`, as in Python. -/
def evalCheck (store : Dict Value) (c : Check) : Option Bool :=
  match dget store c.key with
  | some (Value.num q) =>
      some (match c.cmp with
            | Cmp.gt => decide (c.bound < q)
            | Cmp.ge => decide (c.bound ≤ q))
  | some Value.nan => some false
  | _ => Option.none

/-- The three `parCheck` requirement strings of both scripts. -/
def parCheckD : List Check :=
  [⟨"V_start", Cmp.gt, 0⟩, ⟨"VX_start", Cmp.ge, 0⟩, ⟨"VG_start", Cmp.ge, 0⟩]

/-! ### `par()` and `init()` -/

/-- Result of a `par` call: the parameter store after the call, the printed
messages in order, and whether a Python exception propagated out of the
`eval` of a requirement (the store keeps its update in that case, because the
global dictionary was already mutated in place). -/
structure ParOut where
  store : Dict Value
  msgs : List Msg
  exn : Bool
deriving DecidableEq

/-- Embedding of `par(..)`: keys present in the store are collected into
`x_temp` and applied with one `parDict.update(x_temp)`; every other key is
reported and skipped; afterwards each `parCheck` requirement is evaluated
over the updated store and the violated ones are reported, without rolling
anything back. -/
def par (pv : Dict Value) (pc : List Check) (ov : List (String × Value)) : ParOut :=
  let errs := (ov.filter (fun p => ¬ dhas pv p.1)).map (fun p => Msg.unknownPar p.1)
  let store := dupdate pv (ov.filter (fun p => dhas pv p.1))
  if pc.any (fun c => evalCheck store c = Option.none) then
    ⟨store, errs, true⟩
  else
    ⟨store, errs ++ (pc.filter (fun c => evalCheck store c = some false)).map Msg.checkFailed,
     false⟩

/-- `pat.isPrefixOf l` written out on lists of characters. -/
def listBeginsWith : List Char → List Char → Bool
  | [], _ => true
  | _ :: _, [] => false
  | a :: as, b :: bs => a = b && listBeginsWith as bs

/-- Containment of a character segment, the embedding of Python's
`sub in s` on strings. -/
def listContainsSeg (pat : List Char) : List Char → Bool
  | [] => listBeginsWith pat []
  | c :: rest => listBeginsWith pat (c :: rest) || listContainsSeg pat rest

/-- `'_start' in key`. -/
def containsStart (k : String) : Bool :=
  listContainsSeg "_start".toList k.toList

/-- Embedding of `init(..)`: keys whose name contains `_start` are collected
and applied with one `update`; every other key is reported and ignored. -/
def initIV (pv : Dict Value) (ov : List (String × Value)) : Dict Value × List Msg :=
  (dupdate pv (ov.filter (fun p => containsStart p.1)),
   (ov.filter (fun p => ¬ containsStart p.1)).map (fun p => Msg.notInitialValue p.1))

/-! ### The state-path suffix substitution (`stateValueInitial`) -/

/-- Python string indexing `key[i]` with negative indices counting from the
end; `Option.none` models an `IndexError`. -/
def pyIndex (cs : List Char) (i : Int) : Option Char :=
  if 0 ≤ i then cs[i.toNat]?
  else if 0 ≤ (cs.length : Int) + i then cs[((cs.length : Int) + i).toNat]?
  else Option.none

/-- Python slice `key[-n:]` (total and clamped, like Python slices). -/
def lastSlice (cs : List Char) (n : Nat) : List Char :=
  cs.drop (cs.length - n)

/-- Python slice `key[:-n]`. -/
def dropSliceEnd (cs : List Char) (n : Nat) : List Char :=
  cs.take (cs.length - n)

/-- The per-key body of the suffix-substitution rule, shared verbatim by the
fmpy script's `stateValueInitial` construction (lines 119-135) and the pyfmi
script's continuation loop (lines 435-451): `Except.error` models an
`IndexError` from negative indexing on a too-short key, `Except.ok
Option.none` is the final `else` branch (the `print` + `break` reporting an
array index wider than 3 digits), and `Except.ok (some p)` is the derived
initial-value path. -/
def svikey (cs : List Char) : Except Unit (Option (List Char)) :=
  match pyIndex cs (-1) with
  | Option.none => Except.error ()
  | some last =>
    if ¬ last = ']' then
      if lastSlice cs 3 = "I.y".toList then
        Except.ok (some (dropSliceEnd cs 10 ++ "I_start".toList))
      else if lastSlice cs 3 = "D.x".toList then
        Except.ok (some (dropSliceEnd cs 10 ++ "D_start".toList))
      else
        Except.ok (some (cs ++ "_start".toList))
    else
      match pyIndex cs (-3) with
      | Option.none => Except.error ()
      | some c3 =>
        if c3 = '[' then
          Except.ok (some (dropSliceEnd cs 3 ++ "_start".toList ++ lastSlice cs 3))
        else
          match pyIndex cs (-4) with
          | Option.none => Except.error ()
          | some c4 =>
            if c4 = '[' then
              Except.ok (some (dropSliceEnd cs 4 ++ "_start".toList ++ lastSlice cs 4))
            else
              match pyIndex cs (-5) with
              | Option.none => Except.error ()
              | some c5 =>
                if c5 = '[' then
                  Except.ok (some (dropSliceEnd cs 5 ++ "_start".toList ++ lastSlice cs 5))
                else
                  Except.ok Option.none

/-- `svikey` on strings. -/
def stateValueInitialKey (s : String) : Except Unit (Option String) :=
  (svikey s.toList).map (fun o => o.map String.mk)

/-- Does the state path `k` derive the initial-value path `p`? -/
def derivesTo (k : String) (p : String) : Bool :=
  match svikey k.toList with
  | Except.ok (some q) => String.mk q = p
  | _ => false

/-! ### `newplot()` -/

/-- The fixed enumeration of plot layouts declared by `newplot`. -/
inductive Layout
  | timeSeries
  | timeSeries2
  | extended
  | phasePlane
deriving DecidableEq

/-- What a `newplot` call does for a given `plotType`: set up one of the
layouts, print the `Plot window type not correct` report, or raise. -/
inductive PlotOutcome
  | layout (l : Layout)
  | report
  | nameError
deriving DecidableEq

/-- Embedding of `newplot(title, plotType)` (identical dispatch in both
scripts).  The fourth branch of the source reads `elif diagram ==
'PhasePlane':` where `diagram` is an undefined name (the parameter is called
`plotType` and the global list is called `diagrams`), so evaluating that
condition raises `NameError` before any comparison happens: every
`plotType` outside the three time-series layouts raises, and neither the
`PhasePlane` branch body nor the final `print` is reachable. -/
def newplot (plotType : String) : PlotOutcome :=
  if plotType = "TimeSeries" then PlotOutcome.layout Layout.timeSeries
  else if plotType = "TimeSeries2" then PlotOutcome.layout Layout.timeSeries2
  else if plotType = "Extended" then PlotOutcome.layout Layout.extended
  else PlotOutcome.nameError

/-! ### The pyfmi run driver `simu` -/

/-- The pyfmi model handle, abstracted to its observable surface: current
variable values (`model.get`/`model.set`) and current time (`model.time`). -/
structure Model where
  vals : Dict Value
  time : ℚ
deriving DecidableEq

/-- `model.set(loc, v)`. -/
def msetv (m : Model) (loc : String) (v : Value) : Model :=
  ⟨dset m.vals loc v, m.time⟩

/-- Oracle for the opaque pyfmi FMU and the plotting layer: `reset` is
`model.reset()`, `simulate` maps the configured model, the optional start
time and the final time to the advanced model and the result's time column,
and `plot` returns `true` when evaluating the deferred plot instructions
raises. -/
structure PyFMI where
  reset : Model → Model
  simulate : Model → Option ℚ → ℚ → Model × List ℚ
  plot : Model → List ℚ → Bool

/-- The global state the pyfmi `simu` reads and writes. -/
structure PyState where
  model : Model
  parDict : Dict Value
  stateDict : Dict Value
  prevFinalTime : ℚ
  simulationTime : ℚ
deriving DecidableEq

/-- Result of one pyfmi `simu` invocation: the globals afterwards, the
printed messages, the `model.simulate` invocations that happened (with the
model they received), and whether a Python exception propagated. -/
structure PyOut where
  st : PyState
  msgs : List Msg
  calls : List (Model × Option ℚ × ℚ)
  exn : Bool
deriving DecidableEq

/-- `for key in parDict.keys(): model.set(parLocation[key], parDict[key])`;
the flag is a propagated `KeyError` from the `parLocation` lookup. -/
def setPars (m : Model) (pl : Dict String) : List (String × Value) → Model × Bool
  | [] => (m, false)
  | (k, v) :: rest =>
      match dget pl k with
      | Option.none => (m, true)
      | some loc => setPars (msetv m loc v) pl rest

/-- The continuation-mode loop over `stateDict` (pyfmi script lines
435-451): each tracked state path is remapped with the suffix-substitution
rule and the stored value is written to the derived path; the over-wide
index branch prints and `break`s (without raising); an `IndexError`
propagates. -/
def setStatesPy (m : Model) : List (String × Value) → Model × List Msg × Bool
  | [] => (m, [], false)
  | (k, v) :: rest =>
      match svikey k.toList with
      | Except.error _ => (m, [], true)
      | Except.ok Option.none => (m, [Msg.tooManyStates], false)
      | Except.ok (some p) => setStatesPy (msetv m (String.mk p) v) rest

/-- `for key in list(stateDict.keys()): stateDict[key] = model.get(key)[0]`;
on an exception the keys already visited keep their new values and the
remaining ones their old values, as with in-place mutation. -/
def readStatesPy (m : Model) : Dict Value → Dict Value × Bool
  | [] => ([], false)
  | (k, v) :: rest =>
      match dget m.vals k with
      | Option.none => ((k, v) :: rest, true)
      | some nv =>
          let r := readStatesPy m rest
          ((k, nv) :: r.1, r.2)

/-- The mode aliases accepted for a fresh run. -/
def initModes : List String := ["Initial", "initial", "init"]

/-- The mode aliases accepted for a continuation run. -/
def contModes : List String := ["Continued", "continued", "cont"]

/-- The block under `if simulationDone:` of the pyfmi `simu`: render the
deferred plots, store every tracked state's final value read back from the
model, and record the model time as `prevFinalTime`. -/
def postPy (F : PyFMI) (st : PyState) (ts : List ℚ) (ms : List Msg)
    (calls : List (Model × Option ℚ × ℚ)) : PyOut :=
  if F.plot st.model ts then ⟨st, ms, calls, true⟩
  else
    let r := readStatesPy st.model st.stateDict
    if r.2 then ⟨{ st with stateDict := r.1 }, ms, calls, true⟩
    else ⟨{ st with stateDict := r.1, prevFinalTime := st.model.time }, ms, calls, false⟩

/-- Embedding of `simu` from the pyfmi script: transfer the horizon to the
global, check `parDict` for missing values (returning early if any), reset
the model, then dispatch on the mode. -/
def simuPy (F : PyFMI) (pl : Dict String) (st : PyState) (T : ℚ) (mode : String) : PyOut :=
  let st1 : PyState := { st with simulationTime := T }
  let missing := st1.parDict.filter (fun p => isMissing p.2)
  if missing.isEmpty then
    let st2 : PyState := { st1 with model := F.reset st1.model }
    if mode ∈ initModes then
      let s := setPars st2.model pl st2.parDict
      if s.2 then ⟨{ st2 with model := s.1 }, [], [], true⟩
      else
        let r := F.simulate s.1 Option.none T
        postPy F { st2 with model := r.1 } r.2 [] [(s.1, Option.none, T)]
    else if mode ∈ contModes then
      if st2.prevFinalTime = 0 then
        ⟨st2, [Msg.contBeforeInit, Msg.noSimulationDone], [], false⟩
      else
        let s := setPars st2.model pl st2.parDict
        if s.2 then ⟨{ st2 with model := s.1 }, [], [], true⟩
        else
          let s2 := setStatesPy s.1 st2.stateDict
          if s2.2.2 then ⟨{ st2 with model := s2.1 }, s2.2.1, [], true⟩
          else
            let r := F.simulate s2.1 (some st2.prevFinalTime) (st2.prevFinalTime + T)
            postPy F { st2 with model := r.1 } r.2 s2.2.1
              [(s2.1, some st2.prevFinalTime, st2.prevFinalTime + T)]
    else ⟨st2, [Msg.modeNotCorrect, Msg.noSimulationDone], [], false⟩
  else
    ⟨st1, missing.map (fun p => Msg.valueMissing p.1), [], false⟩

/-! ### The fmpy run driver `simu` -/

/-- The result table returned by `simulate_fmu`: the time column and the
value columns keyed by model-variable path. -/
structure SimRes where
  times : List ℚ
  cols : Dict (List Value)
deriving DecidableEq

/-- One entry of `model_description.modelVariables`; `start` carries the
declared default already parsed to a value (the source applies `float` to
the XML text for Integer/Real variables). -/
structure VarDecl where
  name : String
  variability : String
  vtype : String
  start : Value
deriving DecidableEq

/-- The effect of one matching model variable on the `value` local of
`model_get`: raise, leave `value` untouched, or assign it. -/
inductive GetStep
  | exnStep
  | skip
  | assign (v : Value)
deriving DecidableEq

/-- One iteration body of the `model_get` loop for a variable whose name
matches: a name present in `start_values` returns the start value; a
constant/fixed variable returns its declared default (no assignment for
other declared types); a continuous variable returns the last entry of its
result column, a missing column being the caught branch that assigns `None`,
while `timeSeries[-1]` on an empty column raises an uncaught `IndexError`;
any other variability assigns `None`. -/
def model_getVar (svals : Dict Value) (sr : SimRes) (v : VarDecl) : GetStep :=
  if dhas svals v.name then
    match dget svals v.name with
    | some x => GetStep.assign x
    | Option.none => GetStep.skip
  else if v.variability = "constant" ∨ v.variability = "fixed" then
    if v.vtype = "Integer" ∨ v.vtype = "Real" then GetStep.assign v.start
    else if v.vtype = "String" then GetStep.assign v.start
    else GetStep.skip
  else if v.variability = "continuous" then
    match dget sr.cols v.name with
    | Option.none => GetStep.assign Value.none
    | some col =>
        match col.getLast? with
        | Option.none => GetStep.exnStep
        | some x => GetStep.assign x
  else GetStep.assign Value.none

/-- Fold of the `model_get` loop over the matching variables' steps,
tracking the `value` local (unbound at first). -/
def model_getLoop : List GetStep → Option Value → Option (Option Value)
  | [], acc => some acc
  | GetStep.exnStep :: _, _ => Option.none
  | GetStep.skip :: rest, acc => model_getLoop rest acc
  | GetStep.assign v :: rest, _ => model_getLoop rest (some v)

/-- Embedding of `model_get(parLoc)` from the fmpy script.  The result
`Option.none` models a propagating exception: an `IndexError` from
`timeSeries[-1]` on an empty column, or the `UnboundLocalError` of `return
value` when no model variable carries the name (or none of the branches
assigned). -/
def model_get (vars : List VarDecl) (svals : Dict Value) (sr : SimRes) (loc : String) :
    Option Value :=
  match model_getLoop ((vars.filter (fun v => v.name = loc)).map (model_getVar svals sr))
      Option.none with
  | Option.none => Option.none
  | some Option.none => Option.none
  | some (some v) => some v

/-- The global state the fmpy `simu` reads and writes. -/
structure FmState where
  parValue : Dict Value
  stateValue : Dict Value
  prevFinalTime : ℚ
deriving DecidableEq

/-- Result of one fmpy `simu` invocation: the globals afterwards, the
printed messages, the `simulate_fmu` invocations (start time, stop time and
the `start_values` dictionary handed over), the last result table, and
whether a Python exception propagated. -/
structure FmOut where
  st : FmState
  msgs : List Msg
  calls : List (ℚ × ℚ × Dict Value)
  simRes : Option SimRes
  exn : Bool
deriving DecidableEq

/-- `{parLocation[k]: parValue[k] for k in parValue.keys()}` as the pair
list the comprehension produces; the flag is a propagated `KeyError`. -/
def locPairs (pl : Dict String) : List (String × Value) → List (String × Value) × Bool
  | [] => ([], false)
  | (k, v) :: rest =>
      match dget pl k with
      | Option.none => ([], true)
      | some loc =>
          let r := locPairs pl rest
          ((loc, v) :: r.1, r.2)

/-- The continuation-mode deletion loop (fmpy script lines 503-508): iterate
over `parValue`'s keys and delete from the copies `parValueRed` /
`parLocationRed` every key whose model path is one of the derived
initial-value paths. -/
def delDerived (pl : Dict String) (dv : List String) :
    List (String × Value) → Dict Value → Dict String → Dict Value × Dict String × Bool
  | [], pvr, plr => (pvr, plr, false)
  | (k, _) :: rest, pvr, plr =>
      match dget pl k with
      | Option.none => (pvr, plr, true)
      | some loc =>
          if loc ∈ dv then delDerived pl dv rest (derase pvr k) (derase plr k)
          else delDerived pl dv rest pvr plr

/-- `[(stateValueInitial[key], stateValue[key]) for key in
stateValue.keys()]`; the flag is a propagated `KeyError` when a tracked
state has no derived path (the truncated-table case). -/
def derivedPairs (svi : Dict String) : List (String × Value) → List (String × Value) × Bool
  | [] => ([], false)
  | (k, v) :: rest =>
      match dget svi k with
      | Option.none => ([], true)
      | some p =>
          let r := derivedPairs svi rest
          ((p, v) :: r.1, r.2)

/-- `for key in stateValue.keys(): stateValue[key] = model_get(key)`; on an
exception the keys already visited keep their new values. -/
def readStatesFm (vars : List VarDecl) (svals : Dict Value) (sr : SimRes) :
    Dict Value → Dict Value × Bool
  | [] => ([], false)
  | (k, v) :: rest =>
      match model_get vars svals sr k with
      | Option.none => ((k, v) :: rest, true)
      | some nv =>
          let r := readStatesFm vars svals sr rest
          ((k, nv) :: r.1, r.2)

/-- The block under `if simulationDone:` of the fmpy `simu`: render the
deferred plots, store every tracked state's value via `model_get`, and
record `sim_res['time'][-1]` as `prevFinalTime` (an `IndexError` on an empty
time column propagates). -/
def postFm (P : SimRes → Bool) (vars : List VarDecl) (st : FmState) (svals : Dict Value)
    (sr : SimRes) (calls : List (ℚ × ℚ × Dict Value)) : FmOut :=
  if P sr then ⟨st, [], calls, some sr, true⟩
  else
    let r := readStatesFm vars svals sr st.stateValue
    if r.2 then ⟨{ st with stateValue := r.1 }, [], calls, some sr, true⟩
    else
      match sr.times.getLast? with
      | Option.none => ⟨{ st with stateValue := r.1 }, [], calls, some sr, true⟩
      | some t => ⟨⟨st.parValue, r.1, t⟩, [], calls, some sr, false⟩

/-- Embedding of `simu` from the fmpy script.  `O` is `simulate_fmu`
abstracted to (start time, stop time, start_values) → result table, `P` is
the deferred-plot evaluation (`true` = raises), `pl` is `parLocation`, and
`svi` is the `stateValueInitial` table; `stateValueInitialLoc` is the
identity dictionary the script builds over `svi`'s values at load time and
is recomputed here from `svi`.  The fmpy `simu` performs no missing-value
check. -/
def simuFm (vars : List VarDecl) (O : ℚ → ℚ → Dict Value → SimRes) (P : SimRes → Bool)
    (pl : Dict String) (svi : Dict String) (st : FmState) (T : ℚ) (mode : String) : FmOut :=
  if mode ∈ initModes then
    let s := locPairs pl st.parValue
    if s.2 then ⟨st, [], [], Option.none, true⟩
    else
      let sv := dfromPairs s.1
      postFm P vars st sv (O 0 T sv) [(0, T, sv)]
  else if mode ∈ contModes then
    if st.prevFinalTime = 0 then
      ⟨st, [Msg.contBeforeInit, Msg.noSimulationDone], [], Option.none, false⟩
    else
      let dv := svi.map (fun p => p.2)
      let d := delDerived pl dv st.parValue st.parValue pl
      if d.2.2 then ⟨st, [], [], Option.none, true⟩
      else
        let svil : Dict String := dfromPairs (dv.map (fun x => (x, x)))
        let plMod := dfromPairs (d.2.1 ++ svil)
        let dp := derivedPairs svi st.stateValue
        if dp.2 then ⟨st, [], [], Option.none, true⟩
        else
          let pvMod := dfromPairs (d.1 ++ dp.1)
          let s := locPairs plMod pvMod
          if s.2 then ⟨st, [], [], Option.none, true⟩
          else
            let sv := dfromPairs s.1
            postFm P vars st sv (O st.prevFinalTime (st.prevFinalTime + T) sv)
              [(st.prevFinalTime, st.prevFinalTime + T, sv)]
  else ⟨st, [Msg.modeNotCorrect, Msg.noSimulationDone], [], Option.none, false⟩

/-! ### Concrete fixtures used to instantiate the oracle-quantified
theorems at closed inputs -/

/-- A small concrete model handle. -/
def mFix : Model := ⟨[("bioreactor.V", Value.num 4), ("x[1234]", Value.num 1)], 0⟩

/-- A concrete pyfmi oracle: `reset` rewinds time, `simulate` advances the
clock to the final time and returns a two-point time column, plotting never
raises. -/
def pyFix : PyFMI :=
  { reset := fun m => ⟨m.vals, 0⟩
    simulate := fun m s f => (⟨m.vals, f⟩, [s.getD 0, f])
    plot := fun _ _ => false }

/-- A concrete fmpy oracle returning a fixed two-row result table. -/
def fmOFix : ℚ → ℚ → Dict Value → SimRes :=
  fun a b _ => ⟨[a, b], [("bioreactor.V", [Value.num 4, Value.num 5])]⟩

/-- A concrete plot evaluation that never raises. -/
def plotFix : SimRes → Bool := fun _ => false

/-- A concrete variable directory: one continuous state. -/
def varsFix : List VarDecl := [⟨"bioreactor.V", "continuous", "Real", Value.num 4⟩]

/-! ## Lemmas about the dictionary embedding -/

theorem dget_cons {α : Type} (p : String × α) (rest : Dict α) (k : String) :
    dget (p :: rest) k = if p.1 = k then some p.2 else dget rest k := by
  by_cases h : p.1 = k <;> simp [dget, List.find?, h]

theorem dhas_cons {α : Type} (p : String × α) (rest : Dict α) (k : String) :
    dhas (p :: rest) k = ((p.1 = k : Bool) || dhas rest k) := by
  simp [dhas]

theorem dhas_eq_isSome {α : Type} (d : Dict α) (k : String) :
    dhas d k = (dget d k).isSome := by
  induction d with
  | nil => rfl
  | cons p rest ih =>
      rw [dhas_cons, dget_cons]
      by_cases h : p.1 = k <;> simp [h, ih]

theorem dhas_iff_mem {α : Type} (d : Dict α) (k : String) :
    dhas d k = true ↔ ∃ v, (k, v) ∈ d := by
  unfold dhas
  rw [List.any_eq_true]
  constructor
  · rintro ⟨p, hp, hpk⟩
    refine ⟨p.2, ?_⟩
    have : p = (k, p.2) := by
      cases p
      simp only at hpk
      simp [show _ = k from of_decide_eq_true hpk]
    rwa [this] at hp
  · rintro ⟨v, hv⟩
    exact ⟨(k, v), hv, by simp⟩

theorem dget_eq_none_of_not_dhas {α : Type} {d : Dict α} {k : String}
    (h : dhas d k = false) : dget d k = Option.none := by
  have := dhas_eq_isSome d k
  rw [h] at this
  exact Option.not_isSome_iff_eq_none.mp (by simp [← this])

theorem dget_mem {α : Type} {d : Dict α} {k : String} {v : α}
    (h : dget d k = some v) : (k, v) ∈ d := by
  induction d with
  | nil => simp [dget] at h
  | cons p rest ih =>
      rw [dget_cons] at h
      by_cases hp : p.1 = k
      · rw [if_pos hp] at h
        have : p = (k, v) := by
          cases p
          simp only at hp
          simp only [Option.some.injEq] at h
          simp [hp, h]
        simp [← this]
      · rw [if_neg hp] at h
        exact List.mem_cons_of_mem _ (ih h)

theorem dget_eq_some_of_mem_nodup {α : Type} {d : Dict α} {k : String} {v : α}
    (hnd : (dkeys d).Nodup) (hm : (k, v) ∈ d) : dget d k = some v := by
  induction d with
  | nil => simp at hm
  | cons p rest ih =>
      have hnd2 : (p.1 :: dkeys rest).Nodup := hnd
      have hnotin : p.1 ∉ dkeys rest := (List.nodup_cons.mp hnd2).1
      have hndr : (dkeys rest).Nodup := (List.nodup_cons.mp hnd2).2
      rw [dget_cons]
      rcases List.mem_cons.mp hm with h1 | h1
      · simp [← h1]
      · have hk : ¬ p.1 = k := by
          intro hpk
          exact hnotin (by
            rw [hpk]
            exact List.mem_map.mpr ⟨(k, v), h1, rfl⟩)
        rw [if_neg hk]
        exact ih hndr h1

theorem dget_dset {α : Type} (d : Dict α) (k k' : String) (v : α) :
    dget (dset d k v) k' = if k' = k then some v else dget d k' := by
  induction d with
  | nil =>
      rw [show dset ([] : Dict α) k v = [(k, v)] from rfl, dget_cons]
      by_cases h : k' = k
      · simp [h]
      · have : ¬ (k = k') := fun hh => h hh.symm
        simp [h, this, dget]
  | cons p rest ih =>
      by_cases hp : p.1 = k
      · rw [show dset (p :: rest) k v = (k, v) :: rest from by simp [dset, hp]]
        rw [dget_cons, dget_cons]
        by_cases h : k' = k
        · simp [h]
        · have h1 : ¬ (k = k') := fun hh => h hh.symm
          have h2 : ¬ (p.1 = k') := by rw [hp]; exact h1
          simp [h, h1, h2]
      · rw [show dset (p :: rest) k v = p :: dset rest k v from by simp [dset, hp]]
        rw [dget_cons, dget_cons, ih]
        by_cases hpk' : p.1 = k'
        · have : ¬ (k' = k) := fun hh => hp (by rw [hpk', hh])
          simp [hpk', this]
        · simp [hpk']

theorem dhas_dset {α : Type} (d : Dict α) (k k' : String) (v : α) :
    dhas (dset d k v) k' = (dhas d k' || (k' = k : Bool)) := by
  rw [dhas_eq_isSome, dhas_eq_isSome, dget_dset]
  by_cases h : k' = k <;> simp [h]

theorem dupdate_cons {α : Type} (d : Dict α) (p : String × α) (l : List (String × α)) :
    dupdate d (p :: l) = dupdate (dset d p.1 p.2) l := rfl

theorem dget_dupdate {α : Type} (d : Dict α) (l : List (String × α)) (k : String) :
    dget (dupdate d l) k =
      match l.reverse.find? (fun p => p.1 = k) with
      | some p => some p.2
      | Option.none => dget d k := by
  induction l generalizing d with
  | nil => simp [dupdate]
  | cons p rest ih =>
      rw [dupdate_cons, ih]
      rw [show (p :: rest).reverse = rest.reverse ++ [p] from by simp]
      rw [List.find?_append]
      rcases hfind : rest.reverse.find? (fun q => decide (q.1 = k)) with _ | q
      · rw [hfind] at *
        simp only [Option.none_or]
        by_cases h : p.1 = k
        · rw [List.find?_cons_of_pos _ (by simpa using h)]
          rw [dget_dset, if_pos h.symm]
        · rw [List.find?_cons_of_neg _ (by simpa using h)]
          rw [dget_dset]
          have : ¬ (k = p.1) := fun hh => h hh.symm
          simp [this]
      · rw [hfind]
        simp

theorem dhas_dupdate {α : Type} (d : Dict α) (l : List (String × α)) (k : String) :
    dhas (dupdate d l) k = (dhas d k || dhas l k) := by
  induction l generalizing d with
  | nil => simp [dupdate, dhas]
  | cons p rest ih =>
      rw [dupdate_cons, ih, dhas_dset, dhas_cons]
      by_cases h : p.1 = k
      · simp [h]
      · have : ¬ (k = p.1) := fun hh => h hh.symm
        simp [h, this]

/-- Update with a pair list all of whose entries at key `k` carry the value
`v`: afterwards `k` maps to `v` when present in the list, and is untouched
otherwise. -/
theorem dget_dupdate_const {α : Type} {d : Dict α} {l : List (String × α)} {k : String}
    {v : α} (h : ∀ p ∈ l, p.1 = k → p.2 = v) :
    dget (dupdate d l) k = if dhas l k then some v else dget d k := by
  rw [dget_dupdate]
  rcases hfind : l.reverse.find? (fun p => decide (p.1 = k)) with _ | q
  · have hall : ∀ p ∈ l, ¬ (p.1 = k) := by
      intro p hp
      have := List.find?_eq_none.mp hfind p (List.mem_reverse.mpr hp)
      simpa using this
    have hlk : dhas l k = false := by
      rcases hh : dhas l k with _ | _
      · rfl
      · exfalso
        rcases (dhas_iff_mem l k).mp hh with ⟨w, hw⟩
        exact (hall (k, w) hw) rfl
    simp only [hfind, hlk]
    simp
  · have hq : q ∈ l := List.mem_reverse.mp (List.mem_of_find?_eq_some hfind)
    have hqk : q.1 = k := by simpa using List.find?_some hfind
    have hlk : dhas l k = true := (dhas_iff_mem l k).mpr ⟨q.2, by
      have : q = (k, q.2) := by cases q; simp_all
      rwa [this] at hq⟩
    simp only [hfind, hlk]
    simp [h q hq hqk]

theorem dget_derase {α : Type} (d : Dict α) (j k : String) :
    dget (derase d j) k = if k = j then Option.none else dget d k := by
  induction d with
  | nil => by_cases h : k = j <;> simp [derase, dget, h]
  | cons p rest ih =>
      by_cases hp : p.1 = j
      · rw [show derase (p :: rest) j = derase rest j from by simp [derase, hp]]
        rw [ih, dget_cons]
        by_cases h : k = j
        · simp [h]
        · have h2 : ¬ (p.1 = k) := by rw [hp]; exact fun hh => h hh.symm
          simp [h, h2]
      · rw [show derase (p :: rest) j = p :: derase rest j from by simp [derase, hp]]
        rw [dget_cons, ih, dget_cons]
        by_cases hpk : p.1 = k
        · have : ¬ (k = j) := fun hh => hp (hpk.trans hh)
          simp [hpk, this]
        · simp [hpk]

theorem dhas_derase {α : Type} (d : Dict α) (j k : String) :
    dhas (derase d j) k = (dhas d k && !(k = j : Bool)) := by
  rw [dhas_eq_isSome, dhas_eq_isSome, dget_derase]
  by_cases h : k = j <;> simp [h]

/-- `find?` finds the designated element when it is the only one satisfying
the predicate. -/
theorem find?_eq_of_unique {α : Type} {l : List α} {p : α → Bool} {a : α}
    (ha : a ∈ l) (hpa : p a = true) (huniq : ∀ x ∈ l, p x = true → x = a) :
    l.find? p = some a := by
  induction l with
  | nil => simp at ha
  | cons b rest ih =>
      rcases hb : p b with _ | _
      · have hba : ¬ (b = a) := fun hh => by rw [hh] at hb; rw [hpa] at hb; cases hb
        rcases List.mem_cons.mp ha with h1 | h1
        · exact absurd h1.symm hba
        · rw [List.find?_cons_of_neg _ (by simp [hb])]
          exact ih h1 (fun x hx hpx => huniq x (List.mem_cons_of_mem _ hx) hpx)
      · rw [List.find?_cons_of_pos _ hb]
        rw [huniq b (by simp) hb]

/-- Counting through an injective map. -/
theorem count_map_inj {α β : Type} [DecidableEq α] [DecidableEq β] {f : α → β}
    (hf : ∀ a b, f a = f b → a = b) (l : List α) (a : α) :
    (l.map f).count (f a) = l.count a := by
  induction l with
  | nil => simp
  | cons b rest ih =>
      rw [List.map_cons, List.count_cons, List.count_cons, ih]
      by_cases h : b = a
      · simp [h]
      · have : ¬ (f b = f a) := fun hh => h (hf _ _ hh)
        simp [h, this]

/-! ## Lemmas about the suffix-substitution embedding -/

theorem drop_append_len {α : Type} (b s : List α) (m : Nat) :
    (b ++ s).drop (b.length + m) = s.drop m := by
  induction b with
  | nil => simp
  | cons x b' ih =>
      rw [List.cons_append, List.length_cons]
      rw [show b'.length + 1 + m = (b'.length + m) + 1 from by omega]
      rw [List.drop_succ_cons]
      exact ih

theorem take_append_len {α : Type} (b s : List α) (m : Nat) :
    (b ++ s).take (b.length + m) = b ++ s.take m := by
  induction b with
  | nil => simp
  | cons x b' ih =>
      rw [List.cons_append, List.length_cons]
      rw [show b'.length + 1 + m = (b'.length + m) + 1 from by omega]
      rw [List.take_succ_cons, ih, List.cons_append]

theorem lastSlice_append {b s : List Char} {n : Nat} (h : n ≤ s.length) :
    lastSlice (b ++ s) n = lastSlice s n := by
  unfold lastSlice
  rw [List.length_append]
  rw [show b.length + s.length - n = b.length + (s.length - n) from by omega]
  rw [drop_append_len]

theorem dropSliceEnd_append {b s : List Char} {n : Nat} (h : n ≤ s.length) :
    dropSliceEnd (b ++ s) n = b ++ dropSliceEnd s n := by
  unfold dropSliceEnd
  rw [List.length_append]
  rw [show b.length + s.length - n = b.length + (s.length - n) from by omega]
  rw [take_append_len]

theorem pyIndex_neg_one {cs : List Char} (h : cs ≠ []) :
    pyIndex cs (-1) = cs.getLast? := by
  unfold pyIndex
  have hlen : 1 ≤ cs.length := List.length_pos.mpr h
  rw [if_neg (by omega), if_pos (by omega)]
  rw [List.getLast?_eq_getElem?]
  congr 1
  omega

theorem pyIndex_neg_eq {cs : List Char} {i : Int} (h1 : i ≤ -1)
    (h2 : -i ≤ (cs.length : Int)) :
    pyIndex cs i = cs[((cs.length : Int) + i).toNat]? := by
  unfold pyIndex
  rw [if_neg (by omega), if_pos (by omega)]

theorem pyIndex_neg_append {b s : List Char} {i : Int} (h1 : i ≤ -1)
    (h2 : -i ≤ (s.length : Int)) :
    pyIndex (b ++ s) i = pyIndex s i := by
  rw [pyIndex_neg_eq h1 (by rw [List.length_append]; push_cast; omega)]
  rw [pyIndex_neg_eq h1 h2]
  rw [List.length_append]
  rw [show (((b.length + s.length : Nat) : Int) + i).toNat
        = b.length + ((s.length : Int) + i).toNat from by push_cast; omega]
  rw [List.getElem?_append_right (by omega)]
  congr 1
  omega

theorem digit_ne_lbrack {c : Char} (h : c.isDigit = true) : ¬ (c = '[') := by
  intro hh
  rw [hh] at h
  exact absurd h (by decide)

/-- Case `key[-3:] == 'I.y'` of the suffix substitution: the whole 10-character
suffix is dropped and `I_start` is appended at the truncation point. -/
theorem svikey_Iy {b sfx : List Char} (h10 : sfx.length = 10)
    (h3 : lastSlice sfx 3 = "I.y".toList) :
    svikey (b ++ sfx) = Except.ok (some (b ++ "I_start".toList)) := by
  have hne : b ++ sfx ≠ [] := by
    intro h
    have := congrArg List.length h
    simp [h10] at this
  have hdrop : sfx.drop 7 = "I.y".toList := by
    have := h3
    unfold lastSlice at this
    rw [h10] at this
    simpa using this
  have hlastS : sfx.getLast? = some 'y' := by
    conv_lhs => rw [← List.take_append_drop 7 sfx]
    rw [hdrop, List.getLast?_append]
    rfl
  have h1 : pyIndex (b ++ sfx) (-1) = some 'y' := by
    rw [pyIndex_neg_one hne, List.getLast?_append, hlastS]
    rfl
  have h2 : lastSlice (b ++ sfx) 3 = "I.y".toList := by
    rw [lastSlice_append (by omega)]
    exact h3
  have h4 : dropSliceEnd (b ++ sfx) 10 = b := by
    rw [dropSliceEnd_append (by omega)]
    unfold dropSliceEnd
    rw [h10]
    simp
  have hy : ¬ ('y' = ']') := by decide
  unfold svikey
  rw [h1]
  simp [hy, h2, h4]

/-- Case `key[-3:] == 'D.x'` of the suffix substitution. -/
theorem svikey_Dx {b sfx : List Char} (h10 : sfx.length = 10)
    (h3 : lastSlice sfx 3 = "D.x".toList) :
    svikey (b ++ sfx) = Except.ok (some (b ++ "D_start".toList)) := by
  have hne : b ++ sfx ≠ [] := by
    intro h
    have := congrArg List.length h
    simp [h10] at this
  have hdrop : sfx.drop 7 = "D.x".toList := by
    have := h3
    unfold lastSlice at this
    rw [h10] at this
    simpa using this
  have hlastS : sfx.getLast? = some 'x' := by
    conv_lhs => rw [← List.take_append_drop 7 sfx]
    rw [hdrop, List.getLast?_append]
    rfl
  have h1 : pyIndex (b ++ sfx) (-1) = some 'x' := by
    rw [pyIndex_neg_one hne, List.getLast?_append, hlastS]
    rfl
  have h2 : lastSlice (b ++ sfx) 3 = "D.x".toList := by
    rw [lastSlice_append (by omega)]
    exact h3
  have hne3 : lastSlice (b ++ sfx) 3 ≠ "I.y".toList := by
    rw [h2]
    decide
  have h4 : dropSliceEnd (b ++ sfx) 10 = b := by
    rw [dropSliceEnd_append (by omega)]
    unfold dropSliceEnd
    rw [h10]
    simp
  have hx : ¬ ('x' = ']') := by decide
  unfold svikey
  rw [h1]
  simp [hx, h2, h4, hne3]

/-- Case of a path neither ending in a bracket nor in one of the two
integrator markers: `_start` is appended to the whole path. -/
theorem svikey_plain {cs : List Char} (hne : cs ≠ []) (hlast : cs.getLast? ≠ some ']')
    (hIy : lastSlice cs 3 ≠ "I.y".toList) (hDx : lastSlice cs 3 ≠ "D.x".toList) :
    svikey cs = Except.ok (some (cs ++ "_start".toList)) := by
  rcases hg : cs.getLast? with _ | c
  · exact absurd (List.getLast?_eq_none_iff.mp hg) hne
  · have hc : ¬ (c = ']') := by
      intro hh
      rw [hh] at hg
      exact hlast hg
    have hIy' : lastSlice cs 3 ≠ ['I', '.', 'y'] := by simpa using hIy
    have hDx' : lastSlice cs 3 ≠ ['D', '.', 'x'] := by simpa using hDx
    unfold svikey
    rw [pyIndex_neg_one hne, hg]
    simp [hc, hIy', hDx']

/-- Case of a path ending in a bracketed one-character index. -/
theorem svikey_br1 (b : List Char) (d : Char) :
    svikey (b ++ ['[', d, ']']) =
      Except.ok (some (b ++ "_start".toList ++ ['[', d, ']'])) := by
  have h1 : pyIndex (b ++ ['[', d, ']']) (-1) = some ']' := by
    rw [pyIndex_neg_one (by simp), List.getLast?_append]
    rfl
  have h3 : pyIndex (b ++ ['[', d, ']']) (-3) = some '[' := by
    rw [pyIndex_neg_append (by norm_num) (by norm_num)]
    unfold pyIndex
    norm_num
  have hds : dropSliceEnd (b ++ ['[', d, ']']) 3 = b := by
    rw [dropSliceEnd_append (by norm_num)]
    unfold dropSliceEnd
    simp
  have hls : lastSlice (b ++ ['[', d, ']']) 3 = ['[', d, ']'] := by
    rw [lastSlice_append (by norm_num)]
    unfold lastSlice
    simp
  unfold svikey
  rw [h1]
  simp [h3, hds, hls]

/-- Case of a path ending in a bracketed two-digit index. -/
theorem svikey_br2 (b : List Char) {d1 : Char} (d2 : Char) (hd1 : d1.isDigit = true) :
    svikey (b ++ ['[', d1, d2, ']']) =
      Except.ok (some (b ++ "_start".toList ++ ['[', d1, d2, ']'])) := by
  have h1 : pyIndex (b ++ ['[', d1, d2, ']']) (-1) = some ']' := by
    rw [pyIndex_neg_one (by simp), List.getLast?_append]
    rfl
  have h3 : pyIndex (b ++ ['[', d1, d2, ']']) (-3) = some d1 := by
    rw [pyIndex_neg_append (by norm_num) (by norm_num)]
    unfold pyIndex
    norm_num
  have h4 : pyIndex (b ++ ['[', d1, d2, ']']) (-4) = some '[' := by
    rw [pyIndex_neg_append (by norm_num) (by norm_num)]
    unfold pyIndex
    norm_num
  have hds : dropSliceEnd (b ++ ['[', d1, d2, ']']) 4 = b := by
    rw [dropSliceEnd_append (by norm_num)]
    unfold dropSliceEnd
    simp
  have hls : lastSlice (b ++ ['[', d1, d2, ']']) 4 = ['[', d1, d2, ']'] := by
    rw [lastSlice_append (by norm_num)]
    unfold lastSlice
    simp
  unfold svikey
  rw [h1]
  simp [h3, h4, hds, hls, digit_ne_lbrack hd1]

/-- Case of a path ending in a bracketed three-digit index. -/
theorem svikey_br3 (b : List Char) {d1 d2 : Char} (d3 : Char)
    (hd1 : d1.isDigit = true) (hd2 : d2.isDigit = true) :
    svikey (b ++ ['[', d1, d2, d3, ']']) =
      Except.ok (some (b ++ "_start".toList ++ ['[', d1, d2, d3, ']'])) := by
  have h1 : pyIndex (b ++ ['[', d1, d2, d3, ']']) (-1) = some ']' := by
    rw [pyIndex_neg_one (by simp), List.getLast?_append]
    rfl
  have h3 : pyIndex (b ++ ['[', d1, d2, d3, ']']) (-3) = some d2 := by
    rw [pyIndex_neg_append (by norm_num) (by norm_num)]
    unfold pyIndex
    norm_num
    rfl
  have h4 : pyIndex (b ++ ['[', d1, d2, d3, ']']) (-4) = some d1 := by
    rw [pyIndex_neg_append (by norm_num) (by norm_num)]
    unfold pyIndex
    norm_num
  have h5 : pyIndex (b ++ ['[', d1, d2, d3, ']']) (-5) = some '[' := by
    rw [pyIndex_neg_append (by norm_num) (by norm_num)]
    unfold pyIndex
    norm_num
  have hds : dropSliceEnd (b ++ ['[', d1, d2, d3, ']']) 5 = b := by
    rw [dropSliceEnd_append (by norm_num)]
    unfold dropSliceEnd
    simp
  have hls : lastSlice (b ++ ['[', d1, d2, d3, ']']) 5 = ['[', d1, d2, d3, ']'] := by
    rw [lastSlice_append (by norm_num)]
    unfold lastSlice
    simp
  unfold svikey
  rw [h1]
  simp [h3, h4, h5, hds, hls, digit_ne_lbrack hd1, digit_ne_lbrack hd2]

/-! ## Lemmas about the pyfmi driver -/

theorem contModes_not_init {mode : String} (h : mode ∈ contModes) : ¬ (mode ∈ initModes) := by
  simp only [contModes, List.mem_cons, List.not_mem_nil, or_false] at h
  rcases h with rfl | rfl | rfl <;> decide

theorem readStatesPy_get {m : Model} {d : Dict Value}
    (h : (readStatesPy m d).2 = false) {k : String} (hk : dhas d k = true) :
    dget (readStatesPy m d).1 k = dget m.vals k := by
  induction d with
  | nil => simp [dhas] at hk
  | cons p rest ih =>
      rcases p with ⟨k1, v1⟩
      rcases hv : dget m.vals k1 with _ | nv
      · exfalso
        rw [show readStatesPy m ((k1, v1) :: rest) = ((k1, v1) :: rest, true) from by
              simp [readStatesPy, hv]] at h
        simp at h
      · have hstep : readStatesPy m ((k1, v1) :: rest)
            = ((k1, nv) :: (readStatesPy m rest).1, (readStatesPy m rest).2) := by
          simp [readStatesPy, hv]
        rw [hstep] at h ⊢
        simp only at h
        rw [dget_cons]
        by_cases hkk : k1 = k
        · rw [if_pos hkk, ← hkk, hv]
        · rw [if_neg hkk]
          have hk' : dhas rest k = true := by
            rw [dhas_cons] at hk
            simpa [hkk] using hk
          exact ih h hk'

theorem setStatesPy_all_ok {d : List (String × Value)}
    (hall : ∀ e ∈ d, ∃ q, svikey e.1.toList = Except.ok (some q)) (m : Model) :
    (setStatesPy m d).2 = ([], false) := by
  induction d generalizing m with
  | nil => rfl
  | cons e rest ih =>
      rcases e with ⟨k, w⟩
      rcases hall (k, w) (by simp) with ⟨q, hq⟩
      have hq' : svikey k.toList = Except.ok (some q) := hq
      have hstep : setStatesPy m ((k, w) :: rest)
          = setStatesPy (msetv m (String.mk q) w) rest := by
        simp only [setStatesPy]
        rw [hq']
      rw [hstep]
      exact ih (fun e he => hall e (by simp [he])) _

/-- Last-write-wins through the continuation state loop: when every entry of
the state store that derives the path `p` carries the value `v`, the model
afterwards holds `v` at `p` (if any entry derives `p`) or its previous value
(otherwise), regardless of what was written to `p` before the loop. -/
theorem setStatesPy_get {d : List (String × Value)} {p : String} {v : Value}
    (hall : ∀ e ∈ d, ∃ q, svikey e.1.toList = Except.ok (some q))
    (hv : ∀ e ∈ d, derivesTo e.1 p = true → e.2 = v) (m : Model) :
    dget (setStatesPy m d).1.vals p =
      if d.any (fun e => derivesTo e.1 p) then some v else dget m.vals p := by
  induction d generalizing m with
  | nil => simp [setStatesPy]
  | cons e rest ih =>
      rcases e with ⟨k, w⟩
      rcases hall (k, w) (by simp) with ⟨q, hq⟩
      have hq' : svikey k.toList = Except.ok (some q) := hq
      have hstep : setStatesPy m ((k, w) :: rest)
          = setStatesPy (msetv m (String.mk q) w) rest := by
        simp only [setStatesPy]
        rw [hq']
      rw [hstep]
      rw [ih (fun e he => hall e (by simp [he])) (fun e he hd => hv e (by simp [he]) hd)]
      rw [List.any_cons]
      by_cases hder : derivesTo k p = true
      · have hqp : String.mk q = p := by
          unfold derivesTo at hder
          rw [hq] at hder
          simpa using hder
        have hw : w = v := hv (k, w) (by simp) hder
        simp only [hder, Bool.true_or, if_true]
        by_cases hr : rest.any (fun e => derivesTo e.1 p) = true
        · simp [hr]
        · simp only [Bool.not_eq_true] at hr
          rw [hr]
          simp [msetv, dget_dset, hqp.symm, hw]
      · have hqp : ¬ (p = String.mk q) := by
          intro hh
          apply hder
          unfold derivesTo
          rw [hq]
          simpa using hh.symm
        simp only [Bool.not_eq_true] at hder
        rw [hder]
        simp only [Bool.false_or]
        simp [msetv, dget_dset, hqp]

/-- Reaching an over-wide array index: the loop prints the report, breaks,
and hands back control without an exception. -/
theorem setStatesPy_break {pre rest : List (String × Value)} {bk : String} {v : Value}
    (hpre : ∀ e ∈ pre, ∃ q, svikey e.1.toList = Except.ok (some q))
    (hbk : svikey bk.toList = Except.ok Option.none) (m : Model) :
    ∃ m', setStatesPy m (pre ++ (bk, v) :: rest) = (m', [Msg.tooManyStates], false) := by
  induction pre generalizing m with
  | nil =>
      refine ⟨m, ?_⟩
      simp only [List.nil_append, setStatesPy]
      rw [hbk]
  | cons e pre' ih =>
      rcases e with ⟨k, w⟩
      rcases hpre (k, w) (by simp) with ⟨q, hq⟩
      have hq' : svikey k.toList = Except.ok (some q) := hq
      rw [List.cons_append]
      have hstep : setStatesPy m ((k, w) :: (pre' ++ (bk, v) :: rest))
          = setStatesPy (msetv m (String.mk q) w) (pre' ++ (bk, v) :: rest) := by
        simp only [setStatesPy]
        rw [hq']
      rw [hstep]
      exact ih (fun e he => hpre e (by simp [he])) _

theorem simuPy_eq_missing {F : PyFMI} {pl : Dict String} {st : PyState} {T : ℚ} {mode : String}
    (h : ¬ (st.parDict.filter (fun p => isMissing p.2)).isEmpty = true) :
    simuPy F pl st T mode =
      ⟨{ st with simulationTime := T },
       (st.parDict.filter (fun p => isMissing p.2)).map (fun p => Msg.valueMissing p.1),
       [], false⟩ := by
  unfold simuPy
  rw [if_neg h]

theorem simuPy_eq_cont0 {F : PyFMI} {pl : Dict String} {st : PyState} {T : ℚ} {mode : String}
    (hm : (st.parDict.filter (fun p => isMissing p.2)).isEmpty = true)
    (hmode : mode ∈ contModes) (h0 : st.prevFinalTime = 0) :
    simuPy F pl st T mode =
      ⟨{ st with model := F.reset st.model, simulationTime := T },
       [Msg.contBeforeInit, Msg.noSimulationDone], [], false⟩ := by
  unfold simuPy
  rw [if_pos hm, if_neg (contModes_not_init hmode), if_pos hmode, if_pos h0]

theorem simuPy_eq_contMain {F : PyFMI} {pl : Dict String} {st : PyState} {T : ℚ} {mode : String}
    (hm : (st.parDict.filter (fun p => isMissing p.2)).isEmpty = true)
    (hmode : mode ∈ contModes) (h0 : ¬ st.prevFinalTime = 0) :
    simuPy F pl st T mode =
      (let st2 : PyState := { st with model := F.reset st.model, simulationTime := T }
       let s := setPars st2.model pl st2.parDict
       if s.2 then ⟨{ st2 with model := s.1 }, [], [], true⟩
       else
         let s2 := setStatesPy s.1 st2.stateDict
         if s2.2.2 then ⟨{ st2 with model := s2.1 }, s2.2.1, [], true⟩
         else
           let r := F.simulate s2.1 (some st2.prevFinalTime) (st2.prevFinalTime + T)
           postPy F { st2 with model := r.1 } r.2 s2.2.1
             [(s2.1, some st2.prevFinalTime, st2.prevFinalTime + T)]) := by
  unfold simuPy
  rw [if_pos hm, if_neg (contModes_not_init hmode), if_pos hmode, if_neg h0]

theorem simuPy_eq_initMain {F : PyFMI} {pl : Dict String} {st : PyState} {T : ℚ} {mode : String}
    (hm : (st.parDict.filter (fun p => isMissing p.2)).isEmpty = true)
    (hmode : mode ∈ initModes) :
    simuPy F pl st T mode =
      (let st2 : PyState := { st with model := F.reset st.model, simulationTime := T }
       let s := setPars st2.model pl st2.parDict
       if s.2 then ⟨{ st2 with model := s.1 }, [], [], true⟩
       else
         let r := F.simulate s.1 Option.none T
         postPy F { st2 with model := r.1 } r.2 [] [(s.1, Option.none, T)]) := by
  unfold simuPy
  rw [if_pos hm, if_pos hmode]

/-! ## Lemmas about the fmpy driver -/

theorem locPairs_of_mem {pl : Dict String} {l : List (String × Value)} {x : String × Value}
    (hx : x ∈ (locPairs pl l).1) :
    ∃ k w, (k, w) ∈ l ∧ dget pl k = some x.1 ∧ x.2 = w := by
  induction l with
  | nil => simp [locPairs] at hx
  | cons e rest ih =>
      rcases e with ⟨k, w⟩
      rcases hloc : dget pl k with _ | loc
      · rw [show locPairs pl ((k, w) :: rest) = ([], true) from by
              simp only [locPairs]; rw [hloc]] at hx
        simp at hx
      · rw [show locPairs pl ((k, w) :: rest)
              = ((loc, w) :: (locPairs pl rest).1, (locPairs pl rest).2) from by
              simp only [locPairs]; rw [hloc]] at hx
        rcases List.mem_cons.mp hx with h1 | h1
        · refine ⟨k, w, by simp, ?_, ?_⟩
          · rw [h1]
            exact hloc
          · rw [h1]
        · rcases ih h1 with ⟨k', w', hm, hl, hw⟩
          exact ⟨k', w', by simp [hm], hl, hw⟩

theorem locPairs_exn_false {pl : Dict String} {l : List (String × Value)}
    (h : ∀ e ∈ l, (dget pl e.1).isSome = true) : (locPairs pl l).2 = false := by
  induction l with
  | nil => rfl
  | cons e rest ih =>
      rcases e with ⟨k, w⟩
      rcases hloc : dget pl k with _ | loc
      · have := h (k, w) (by simp)
        rw [hloc] at this
        simp at this
      · rw [show locPairs pl ((k, w) :: rest)
              = ((loc, w) :: (locPairs pl rest).1, (locPairs pl rest).2) from by
              simp only [locPairs]; rw [hloc]]
        exact ih (fun e he => h e (by simp [he]))

theorem locPairs_mem_of {pl : Dict String} {l : List (String × Value)}
    (hexn : (locPairs pl l).2 = false) {k : String} {w : Value} {loc : String}
    (hm : (k, w) ∈ l) (hloc : dget pl k = some loc) : (loc, w) ∈ (locPairs pl l).1 := by
  induction l with
  | nil => simp at hm
  | cons e rest ih =>
      rcases e with ⟨k1, w1⟩
      rcases hloc1 : dget pl k1 with _ | loc1
      · rw [show locPairs pl ((k1, w1) :: rest) = ([], true) from by
              simp only [locPairs]; rw [hloc1]] at hexn
        simp at hexn
      · have hstep : locPairs pl ((k1, w1) :: rest)
            = ((loc1, w1) :: (locPairs pl rest).1, (locPairs pl rest).2) := by
          simp only [locPairs]; rw [hloc1]
        rw [hstep] at hexn ⊢
        simp only at hexn
        rcases List.mem_cons.mp hm with h1 | h1
        · have hk : k1 = k := congrArg Prod.fst h1.symm
          have hw : w1 = w := congrArg Prod.snd h1.symm
          rw [hk] at hloc1
          rw [hloc1] at hloc
          have hle : loc1 = loc := Option.some.inj hloc
          simp [hle.symm, hw]
        · exact List.mem_cons_of_mem _ (ih hexn h1)

theorem derivedPairs_exn_true {svi : Dict String} {l : List (String × Value)}
    {k : String} {v : Value} (hm : (k, v) ∈ l) (h : dget svi k = Option.none) :
    (derivedPairs svi l).2 = true := by
  induction l with
  | nil => simp at hm
  | cons e rest ih =>
      rcases e with ⟨k1, v1⟩
      rcases hd : dget svi k1 with _ | p1
      · rw [show derivedPairs svi ((k1, v1) :: rest) = ([], true) from by
              simp only [derivedPairs]; rw [hd]]
      · have hstep : derivedPairs svi ((k1, v1) :: rest)
            = ((p1, v1) :: (derivedPairs svi rest).1, (derivedPairs svi rest).2) := by
          simp only [derivedPairs]; rw [hd]
        rw [hstep]
        rcases List.mem_cons.mp hm with h1 | h1
        · have hk : k1 = k := (congrArg Prod.fst h1.symm)
          rw [hk, h] at hd
          cases hd
        · exact ih h1

theorem derivedPairs_exn_false {svi : Dict String} {l : List (String × Value)}
    (h : ∀ e ∈ l, (dget svi e.1).isSome = true) : (derivedPairs svi l).2 = false := by
  induction l with
  | nil => rfl
  | cons e rest ih =>
      rcases e with ⟨k, v⟩
      rcases hd : dget svi k with _ | p
      · have := h (k, v) (by simp)
        rw [hd] at this
        simp at this
      · rw [show derivedPairs svi ((k, v) :: rest)
              = ((p, v) :: (derivedPairs svi rest).1, (derivedPairs svi rest).2) from by
              simp only [derivedPairs]; rw [hd]]
        exact ih (fun e he => h e (by simp [he]))

theorem derivedPairs_of_mem {svi : Dict String} {l : List (String × Value)}
    {x : String × Value} (hx : x ∈ (derivedPairs svi l).1) :
    ∃ k w, (k, w) ∈ l ∧ dget svi k = some x.1 ∧ x.2 = w := by
  induction l with
  | nil => simp [derivedPairs] at hx
  | cons e rest ih =>
      rcases e with ⟨k, w⟩
      rcases hd : dget svi k with _ | p
      · rw [show derivedPairs svi ((k, w) :: rest) = ([], true) from by
              simp only [derivedPairs]; rw [hd]] at hx
        simp at hx
      · rw [show derivedPairs svi ((k, w) :: rest)
              = ((p, w) :: (derivedPairs svi rest).1, (derivedPairs svi rest).2) from by
              simp only [derivedPairs]; rw [hd]] at hx
        rcases List.mem_cons.mp hx with h1 | h1
        · refine ⟨k, w, by simp, ?_, ?_⟩
          · rw [h1]
            exact hd
          · rw [h1]
        · rcases ih h1 with ⟨k', w', hm, hl, hw⟩
          exact ⟨k', w', by simp [hm], hl, hw⟩

theorem derivedPairs_mem_of {svi : Dict String} {l : List (String × Value)}
    (hexn : (derivedPairs svi l).2 = false) {k : String} {w : Value} {p : String}
    (hm : (k, w) ∈ l) (hp : dget svi k = some p) : (p, w) ∈ (derivedPairs svi l).1 := by
  induction l with
  | nil => simp at hm
  | cons e rest ih =>
      rcases e with ⟨k1, w1⟩
      rcases hd : dget svi k1 with _ | p1
      · rw [show derivedPairs svi ((k1, w1) :: rest) = ([], true) from by
              simp only [derivedPairs]; rw [hd]] at hexn
        simp at hexn
      · have hstep : derivedPairs svi ((k1, w1) :: rest)
            = ((p1, w1) :: (derivedPairs svi rest).1, (derivedPairs svi rest).2) := by
          simp only [derivedPairs]; rw [hd]
        rw [hstep] at hexn ⊢
        simp only at hexn
        rcases List.mem_cons.mp hm with h1 | h1
        · have hk : k1 = k := congrArg Prod.fst h1.symm
          have hw : w1 = w := congrArg Prod.snd h1.symm
          rw [hk] at hd
          rw [hd] at hp
          have hpe : p1 = p := Option.some.inj hp
          simp [hpe.symm, hw]
        · exact List.mem_cons_of_mem _ (ih hexn h1)

theorem delDerived_exn_false {pl : Dict String} {dv : List String}
    {it : List (String × Value)} (h : ∀ e ∈ it, (dget pl e.1).isSome = true)
    (pvr : Dict Value) (plr : Dict String) :
    (delDerived pl dv it pvr plr).2.2 = false := by
  induction it generalizing pvr plr with
  | nil => rfl
  | cons e rest ih =>
      rcases e with ⟨k, w⟩
      rcases hloc : dget pl k with _ | loc
      · have := h (k, w) (by simp)
        rw [hloc] at this
        simp at this
      · have hstep : delDerived pl dv ((k, w) :: rest) pvr plr
            = if loc ∈ dv then delDerived pl dv rest (derase pvr k) (derase plr k)
              else delDerived pl dv rest pvr plr := by
          simp only [delDerived]; rw [hloc]
        rw [hstep]
        by_cases hin : loc ∈ dv
        · rw [if_pos hin]; exact ih (fun e he => h e (by simp [he])) _ _
        · rw [if_neg hin]; exact ih (fun e he => h e (by simp [he])) _ _

theorem delDerived_pvr_sub {pl : Dict String} {dv : List String}
    {it : List (String × Value)} {pvr : Dict Value} {plr : Dict String} {q : String}
    (h : dhas (delDerived pl dv it pvr plr).1 q = true) : dhas pvr q = true := by
  induction it generalizing pvr plr with
  | nil => exact h
  | cons e rest ih =>
      rcases e with ⟨k, w⟩
      rcases hloc : dget pl k with _ | loc
      · rw [show delDerived pl dv ((k, w) :: rest) pvr plr = (pvr, plr, true) from by
              simp only [delDerived]; rw [hloc]] at h
        exact h
      · have hstep : delDerived pl dv ((k, w) :: rest) pvr plr
            = if loc ∈ dv then delDerived pl dv rest (derase pvr k) (derase plr k)
              else delDerived pl dv rest pvr plr := by
          simp only [delDerived]; rw [hloc]
        rw [hstep] at h
        by_cases hin : loc ∈ dv
        · rw [if_pos hin] at h
          have := ih h
          rw [dhas_derase] at this
          exact (Bool.and_eq_true_iff.mp this).1
      -- the erased store can only shrink
        · rw [if_neg hin] at h
          exact ih h

theorem delDerived_plr_sub {pl : Dict String} {dv : List String}
    {it : List (String × Value)} {pvr : Dict Value} {plr : Dict String} {q : String}
    (h : dhas (delDerived pl dv it pvr plr).2.1 q = true) : dhas plr q = true := by
  induction it generalizing pvr plr with
  | nil => exact h
  | cons e rest ih =>
      rcases e with ⟨k, w⟩
      rcases hloc : dget pl k with _ | loc
      · rw [show delDerived pl dv ((k, w) :: rest) pvr plr = (pvr, plr, true) from by
              simp only [delDerived]; rw [hloc]] at h
        exact h
      · have hstep : delDerived pl dv ((k, w) :: rest) pvr plr
            = if loc ∈ dv then delDerived pl dv rest (derase pvr k) (derase plr k)
              else delDerived pl dv rest pvr plr := by
          simp only [delDerived]; rw [hloc]
        rw [hstep] at h
        by_cases hin : loc ∈ dv
        · rw [if_pos hin] at h
          have := ih h
          rw [dhas_derase] at this
          exact (Bool.and_eq_true_iff.mp this).1
        · rw [if_neg hin] at h
          exact ih h

theorem delDerived_get_plr {pl : Dict String} {dv : List String}
    {it : List (String × Value)} {pvr : Dict Value} {plr : Dict String} {q : String}
    (h : dhas (delDerived pl dv it pvr plr).2.1 q = true) :
    dget (delDerived pl dv it pvr plr).2.1 q = dget plr q := by
  induction it generalizing pvr plr with
  | nil => rfl
  | cons e rest ih =>
      rcases e with ⟨k, w⟩
      rcases hloc : dget pl k with _ | loc
      · rw [show delDerived pl dv ((k, w) :: rest) pvr plr = (pvr, plr, true) from by
              simp only [delDerived]; rw [hloc]] at h ⊢
      · have hstep : delDerived pl dv ((k, w) :: rest) pvr plr
            = if loc ∈ dv then delDerived pl dv rest (derase pvr k) (derase plr k)
              else delDerived pl dv rest pvr plr := by
          simp only [delDerived]; rw [hloc]
        rw [hstep] at h ⊢
        by_cases hin : loc ∈ dv
        · rw [if_pos hin] at h ⊢
          rw [ih h]
          have hsub := delDerived_plr_sub h
          rw [dhas_derase] at hsub
          have hq : ¬ (q = k) := by
            intro hh
            rw [hh] at hsub
            simp at hsub
          rw [dget_derase, if_neg hq]
        · rw [if_neg hin] at h ⊢
          exact ih h

/-- A key of the iteration list whose model path is a derived path is
deleted from the parameter copy (provided the loop ran to completion). -/
theorem delDerived_deletes {pl : Dict String} {dv : List String}
    {it : List (String × Value)} {pvr : Dict Value} {plr : Dict String}
    {q : String} {w : Value} {loc : String}
    (hexn : (delDerived pl dv it pvr plr).2.2 = false)
    (hit : (q, w) ∈ it) (hloc : dget pl q = some loc) (hin : loc ∈ dv) :
    dhas (delDerived pl dv it pvr plr).1 q = false := by
  induction it generalizing pvr plr with
  | nil => simp at hit
  | cons e rest ih =>
      rcases e with ⟨k, w1⟩
      rcases hlock : dget pl k with _ | lock
      · rw [show delDerived pl dv ((k, w1) :: rest) pvr plr = (pvr, plr, true) from by
              simp only [delDerived]; rw [hlock]] at hexn
        simp at hexn
      · have hstep : delDerived pl dv ((k, w1) :: rest) pvr plr
            = if lock ∈ dv then delDerived pl dv rest (derase pvr k) (derase plr k)
              else delDerived pl dv rest pvr plr := by
          simp only [delDerived]; rw [hlock]
        rw [hstep] at hexn ⊢
        rcases List.mem_cons.mp hit with h1 | h1
        · have hk : k = q := congrArg Prod.fst h1.symm
          subst hk
          have hlocs : lock = loc := by
            rw [hlock] at hloc
            exact Option.some.inj hloc
          rw [hlocs] at hexn ⊢
          rw [if_pos hin] at hexn ⊢
          rcases hres : dhas (delDerived pl dv rest (derase pvr k) (derase plr k)).1 k
            with _ | _
          · rfl
          · exfalso
            have := delDerived_pvr_sub hres
            rw [dhas_derase] at this
            simp at this
        · by_cases hin2 : lock ∈ dv
          · rw [if_pos hin2] at hexn ⊢
            exact ih hexn h1
          · rw [if_neg hin2] at hexn ⊢
            exact ih hexn h1

/-- A parameter key surviving the deletion loop has a model path outside the
derived set. -/
theorem delDerived_survivor_loc {pl : Dict String} {dv : List String}
    {it : List (String × Value)} {pvr : Dict Value} {plr : Dict String}
    {q : String} {w : Value} {loc : String}
    (hexn : (delDerived pl dv it pvr plr).2.2 = false)
    (hit : (q, w) ∈ it) (hloc : dget pl q = some loc)
    (hres : dhas (delDerived pl dv it pvr plr).1 q = true) : loc ∉ dv := by
  intro hin
  have := delDerived_deletes hexn hit hloc hin
  rw [hres] at this
  cases this

theorem readStatesFm_get {vars : List VarDecl} {svals : Dict Value} {sr : SimRes}
    {d : Dict Value} (h : (readStatesFm vars svals sr d).2 = false)
    {k : String} (hk : dhas d k = true) :
    ∃ nv, model_get vars svals sr k = some nv ∧
      dget (readStatesFm vars svals sr d).1 k = some nv := by
  induction d with
  | nil => simp [dhas] at hk
  | cons p rest ih =>
      rcases p with ⟨k1, v1⟩
      rcases hv : model_get vars svals sr k1 with _ | nv
      · exfalso
        rw [show readStatesFm vars svals sr ((k1, v1) :: rest) = ((k1, v1) :: rest, true)
              from by simp only [readStatesFm]; rw [hv]] at h
        simp at h
      · have hstep : readStatesFm vars svals sr ((k1, v1) :: rest)
            = ((k1, nv) :: (readStatesFm vars svals sr rest).1,
               (readStatesFm vars svals sr rest).2) := by
          simp only [readStatesFm]; rw [hv]
        rw [hstep] at h ⊢
        simp only at h
        by_cases hkk : k1 = k
        · refine ⟨nv, ?_, ?_⟩
          · rw [← hkk]; exact hv
          · rw [dget_cons, if_pos hkk]
        · have hk' : dhas rest k = true := by
            rw [dhas_cons] at hk
            simpa [hkk] using hk
          rcases ih h hk' with ⟨nv', h1, h2⟩
          refine ⟨nv', h1, ?_⟩
          rw [dget_cons, if_neg hkk]
          exact h2

theorem model_getLoop_all_assign {l : List GetStep} {x : Value} (hne : l ≠ [])
    (hall : ∀ s ∈ l, s = GetStep.assign x) (acc : Option Value) :
    model_getLoop l acc = some (some x) := by
  induction l generalizing acc with
  | nil => exact absurd rfl hne
  | cons s rest ih =>
      rw [hall s (by simp)]
      rcases rest with _ | ⟨s2, rest2⟩
      · rfl
      · rw [show model_getLoop (GetStep.assign x :: s2 :: rest2) acc
              = model_getLoop (s2 :: rest2) (some x) from rfl]
        exact ih (by simp) (fun t ht => hall t (by simp [ht])) _

/-- `model_get` on a path carried only by continuous model variables, absent
from `start_values` and present in the result table, returns the last entry
of its result column (and raises, like the source, when the column is
empty — both sides are `Option.none` then). -/
theorem model_get_continuous {vars : List VarDecl} {svals : Dict Value} {sr : SimRes}
    {k : String} {col : List Value}
    (hex : ∃ w ∈ vars, w.name = k)
    (hcont : ∀ w ∈ vars, w.name = k → w.variability = "continuous")
    (hsv : dhas svals k = false)
    (hcol : dget sr.cols k = some col) :
    model_get vars svals sr k = col.getLast? := by
  have hstep : ∀ w ∈ vars.filter (fun v => v.name = k),
      model_getVar svals sr w =
        (match col.getLast? with
         | Option.none => GetStep.exnStep
         | some x => GetStep.assign x) := by
    intro w hw
    have hwv := List.mem_filter.mp hw
    have hname : w.name = k := by simpa using hwv.2
    have hvar : w.variability = "continuous" := hcont w hwv.1 hname
    unfold model_getVar
    rw [hname, hvar]
    rw [if_neg (by rw [hsv]; simp)]
    rw [if_neg (by decide), if_pos rfl]
    rw [hcol]
  have hne : (vars.filter (fun v => v.name = k)).map (model_getVar svals sr) ≠ [] := by
    rcases hex with ⟨w, hw, hname⟩
    have : w ∈ vars.filter (fun v => v.name = k) :=
      List.mem_filter.mpr ⟨hw, by simpa using hname⟩
    intro hh
    rw [List.map_eq_nil_iff] at hh
    rw [hh] at this
    simp at this
  rcases hg : col.getLast? with _ | x
  · rw [hg] at hstep
    unfold model_get
    rcases hmap : (vars.filter (fun v => v.name = k)).map (model_getVar svals sr)
      with _ | ⟨s, srest⟩
    · exact absurd hmap hne
    · have hs : s = GetStep.exnStep := by
        have : s ∈ (vars.filter (fun v => v.name = k)).map (model_getVar svals sr) := by
          rw [hmap]; simp
        rcases List.mem_map.mp this with ⟨w, hw, hws⟩
        rw [← hws, hstep w hw]
      rw [hmap, hs]
      rfl
  · rw [hg] at hstep
    unfold model_get
    have hall : ∀ s ∈ (vars.filter (fun v => v.name = k)).map (model_getVar svals sr),
        s = GetStep.assign x := by
      intro s hs
      rcases List.mem_map.mp hs with ⟨w, hw, hws⟩
      rw [← hws, hstep w hw]
    rw [model_getLoop_all_assign hne hall]

theorem simuFm_eq_cont0 {vars : List VarDecl} {O : ℚ → ℚ → Dict Value → SimRes}
    {P : SimRes → Bool} {pl svi : Dict String} {st : FmState} {T : ℚ} {mode : String}
    (hmode : mode ∈ contModes) (h0 : st.prevFinalTime = 0) :
    simuFm vars O P pl svi st T mode =
      ⟨st, [Msg.contBeforeInit, Msg.noSimulationDone], [], Option.none, false⟩ := by
  unfold simuFm
  rw [if_neg (contModes_not_init hmode), if_pos hmode, if_pos h0]

theorem simuFm_eq_initMain {vars : List VarDecl} {O : ℚ → ℚ → Dict Value → SimRes}
    {P : SimRes → Bool} {pl svi : Dict String} {st : FmState} {T : ℚ} {mode : String}
    (hmode : mode ∈ initModes) :
    simuFm vars O P pl svi st T mode =
      (let s := locPairs pl st.parValue
       if s.2 then ⟨st, [], [], Option.none, true⟩
       else
         let sv := dfromPairs s.1
         postFm P vars st sv (O 0 T sv) [(0, T, sv)]) := by
  unfold simuFm
  rw [if_pos hmode]

theorem simuFm_eq_contMain {vars : List VarDecl} {O : ℚ → ℚ → Dict Value → SimRes}
    {P : SimRes → Bool} {pl svi : Dict String} {st : FmState} {T : ℚ} {mode : String}
    (hmode : mode ∈ contModes) (h0 : ¬ st.prevFinalTime = 0) :
    simuFm vars O P pl svi st T mode =
      (let dv := svi.map (fun p => p.2)
       let d := delDerived pl dv st.parValue st.parValue pl
       if d.2.2 then ⟨st, [], [], Option.none, true⟩
       else
         let svil : Dict String := dfromPairs (dv.map (fun x => (x, x)))
         let plMod := dfromPairs (d.2.1 ++ svil)
         let dp := derivedPairs svi st.stateValue
         if dp.2 then ⟨st, [], [], Option.none, true⟩
         else
           let pvMod := dfromPairs (d.1 ++ dp.1)
           let s := locPairs plMod pvMod
           if s.2 then ⟨st, [], [], Option.none, true⟩
           else
             let sv := dfromPairs s.1
             postFm P vars st sv (O st.prevFinalTime (st.prevFinalTime + T) sv)
               [(st.prevFinalTime, st.prevFinalTime + T, sv)]) := by
  unfold simuFm
  rw [if_neg (contModes_not_init hmode), if_pos hmode, if_neg h0]

/-- Counting the per-key messages produced by a key-filtered map over a pair
list: when the key satisfies the filter its multiplicity among the keys is
kept, otherwise nothing is emitted for it. -/
theorem count_keymap_filtered (ov : List (String × Value)) (pred : String → Bool)
    (f : String → Msg) (hf : ∀ a b, f a = f b → a = b) (k : String) :
    ((ov.filter (fun p => pred p.1)).map (fun p => f p.1)).count (f k)
      = if pred k = true then (dkeys ov).count k else 0 := by
  induction ov with
  | nil => cases hp : pred k <;> simp [hp, dkeys]
  | cons p rest ih =>
      rw [List.filter_cons]
      by_cases hp : pred p.1 = true
      · rw [if_pos (by simpa using hp)]
        rw [List.map_cons, List.count_cons, ih]
        by_cases hpk : p.1 = k
        · have hpredk : pred k = true := hpk ▸ hp
          simp [hpredk, dkeys, List.count_cons, hpk]
        · have hfne : ¬ (f p.1 = f k) := fun hh => hpk (hf _ _ hh)
          simp [hfne, dkeys, List.count_cons, hpk]
      · rw [if_neg (by simpa using hp)]
        rw [ih]
        by_cases hpredk : pred k = true
        · have hpk : ¬ (p.1 = k) := fun hh => hp (by rw [hh]; exact hpredk)
          simp [hpredk, dkeys, List.count_cons, hpk]
        · simp [hpredk]

/-! ## Further dictionary lemmas used by the continuation claims -/

theorem dhas_append {α : Type} (a b : Dict α) (k : String) :
    dhas (a ++ b) k = (dhas a k || dhas b k) := by
  simp [dhas, List.any_append]

theorem dupdate_append {α : Type} (d : Dict α) (l1 l2 : List (String × α)) :
    dupdate d (l1 ++ l2) = dupdate (dupdate d l1) l2 := by
  simp [dupdate, List.foldl_append]

theorem dhas_dfromPairs {α : Type} (l : List (String × α)) (k : String) :
    dhas (dfromPairs l) k = dhas l k := by
  rw [dfromPairs, dhas_dupdate]
  simp [dhas]

theorem dget_dfromPairs_mem {α : Type} {l : List (String × α)} {q : String} {w : α}
    (h : dget (dfromPairs l) q = some w) : (q, w) ∈ l := by
  rw [dfromPairs, dget_dupdate] at h
  rcases hfind : l.reverse.find? (fun p => decide (p.1 = q)) with _ | pr
  · rw [hfind] at h
    simp [dget] at h
  · rw [hfind] at h
    simp only at h
    have hmem : pr ∈ l := List.mem_reverse.mp (List.mem_of_find?_eq_some hfind)
    have hq : pr.1 = q := by simpa using List.find?_some hfind
    have hw : pr.2 = w := Option.some.inj h
    have : pr = (q, w) := by cases pr; simp_all
    rwa [this] at hmem

theorem dkeys_dset {α : Type} (d : Dict α) (k : String) (v : α) :
    dkeys (dset d k v) = if dhas d k then dkeys d else dkeys d ++ [k] := by
  induction d with
  | nil => simp [dset, dkeys, dhas]
  | cons p rest ih =>
      by_cases hp : p.1 = k
      · rw [show dset (p :: rest) k v = (k, v) :: rest from by simp [dset, hp]]
        rw [if_pos (by rw [dhas_cons]; simp [hp])]
        simp [dkeys, hp]
      · rw [show dset (p :: rest) k v = p :: dset rest k v from by simp [dset, hp]]
        rw [dhas_cons]
        simp only [hp, decide_eq_true_eq]
        rw [show dkeys (p :: dset rest k v) = p.1 :: dkeys (dset rest k v) from rfl]
        rw [ih]
        by_cases hr : dhas rest k = true
        · simp [hr, dkeys, hp]
        · have : dhas rest k = false := by simpa using hr
          simp [this, dkeys, hp]

theorem dset_keys_nodup {α : Type} {d : Dict α} (hnd : (dkeys d).Nodup)
    (k : String) (v : α) : (dkeys (dset d k v)).Nodup := by
  rw [dkeys_dset]
  by_cases h : dhas d k = true
  · simp [h, hnd]
  · have hf : dhas d k = false := by simpa using h
    rw [hf]
    simp only [if_false, Bool.false_eq_true]
    rw [List.nodup_append]
    refine ⟨hnd, by simp, ?_⟩
    intro a ha hb
    have : a = k := by simpa using hb
    rw [this] at ha
    have : dhas d k = true := by
      rcases List.mem_map.mp ha with ⟨p, hp, hpk⟩
      exact (dhas_iff_mem d k).mpr ⟨p.2, by
        have : p = (k, p.2) := by cases p; simp_all
        rwa [this] at hp⟩
    rw [this] at hf
    cases hf

theorem dupdate_keys_nodup {α : Type} {d : Dict α} (hnd : (dkeys d).Nodup)
    (l : List (String × α)) : (dkeys (dupdate d l)).Nodup := by
  induction l generalizing d with
  | nil => exact hnd
  | cons p rest ih => exact ih (dset_keys_nodup hnd p.1 p.2)

theorem dfromPairs_keys_nodup {α : Type} (l : List (String × α)) :
    (dkeys (dfromPairs l)).Nodup := dupdate_keys_nodup (by simp [dkeys]) l

theorem mem_dfromPairs_get {α : Type} {l : List (String × α)} {x : String × α}
    (hx : x ∈ dfromPairs l) : dget (dfromPairs l) x.1 = some x.2 := by
  apply dget_eq_some_of_mem_nodup (dfromPairs_keys_nodup l)
  have : x = (x.1, x.2) := by cases x; rfl
  rwa [this] at hx

theorem derase_keys_nodup {α : Type} {d : Dict α} (hnd : (dkeys d).Nodup)
    (k : String) : (dkeys (derase d k)).Nodup := by
  have hsub : List.Sublist (dkeys (derase d k)) (dkeys d) := by
    unfold derase dkeys
    exact List.Sublist.map _ (List.filter_sublist d)
  exact hnd.sublist hsub

theorem delDerived_plr_nodup {pl : Dict String} {dv : List String}
    {it : List (String × Value)} {pvr : Dict Value} {plr : Dict String}
    (hnd : (dkeys plr).Nodup) : (dkeys (delDerived pl dv it pvr plr).2.1).Nodup := by
  induction it generalizing pvr plr with
  | nil => exact hnd
  | cons e rest ih =>
      rcases e with ⟨k, w⟩
      rcases hloc : dget pl k with _ | loc
      · rw [show delDerived pl dv ((k, w) :: rest) pvr plr = (pvr, plr, true) from by
              simp only [delDerived]; rw [hloc]]
        exact hnd
      · have hstep : delDerived pl dv ((k, w) :: rest) pvr plr
            = if loc ∈ dv then delDerived pl dv rest (derase pvr k) (derase plr k)
              else delDerived pl dv rest pvr plr := by
          simp only [delDerived]; rw [hloc]
        rw [hstep]
        by_cases hin : loc ∈ dv
        · rw [if_pos hin]; exact ih (derase_keys_nodup hnd k)
        · rw [if_neg hin]; exact ih hnd

/-- Keys deleted from the parameter copy are also deleted from the location
copy in the same iteration; a key surviving in the parameter copy that the
location copy held at entry still sits in the location copy. -/
theorem delDerived_joint {pl : Dict String} {dv : List String}
    {it : List (String × Value)} {pvr : Dict Value} {plr : Dict String} {q : String}
    (h : dhas (delDerived pl dv it pvr plr).1 q = true)
    (hplr : dhas plr q = true) : dhas (delDerived pl dv it pvr plr).2.1 q = true := by
  induction it generalizing pvr plr with
  | nil => exact hplr
  | cons e rest ih =>
      rcases e with ⟨k, w⟩
      rcases hloc : dget pl k with _ | loc
      · rw [show delDerived pl dv ((k, w) :: rest) pvr plr = (pvr, plr, true) from by
              simp only [delDerived]; rw [hloc]] at h ⊢
        exact hplr
      · have hstep : delDerived pl dv ((k, w) :: rest) pvr plr
            = if loc ∈ dv then delDerived pl dv rest (derase pvr k) (derase plr k)
              else delDerived pl dv rest pvr plr := by
          simp only [delDerived]; rw [hloc]
        rw [hstep] at h ⊢
        by_cases hin : loc ∈ dv
        · rw [if_pos hin] at h ⊢
          by_cases hqk : q = k
          · exfalso
            have := delDerived_pvr_sub h
            rw [dhas_derase, hqk] at this
            simp at this
          · refine ih h ?_
            rw [dhas_derase, hplr]
            simp [hqk]
        · rw [if_neg hin] at h ⊢
          exact ih h hplr

/-! ## Path lemmas for the post-run block -/

theorem postPy_spec (F : PyFMI) (st : PyState) (ts : List ℚ) (ms : List Msg)
    (calls : List (Model × Option ℚ × ℚ)) :
    (postPy F st ts ms calls).msgs = ms ∧
    (postPy F st ts ms calls).calls = calls ∧
    ((postPy F st ts ms calls).exn = false →
       (postPy F st ts ms calls).st.model = st.model ∧
       (postPy F st ts ms calls).st.prevFinalTime = st.model.time ∧
       (readStatesPy st.model st.stateDict).2 = false ∧
       (postPy F st ts ms calls).st.stateDict = (readStatesPy st.model st.stateDict).1) := by
  simp only [postPy]
  split
  · refine ⟨rfl, rfl, fun h => ?_⟩
    simp at h
  · split
    · refine ⟨rfl, rfl, fun h => ?_⟩
      simp at h
    · rename_i hplot hread
      refine ⟨rfl, rfl, fun _ => ⟨rfl, rfl, by simpa using hread, rfl⟩⟩

theorem postFm_spec (P : SimRes → Bool) (vars : List VarDecl) (st : FmState)
    (svals : Dict Value) (sr : SimRes) (calls : List (ℚ × ℚ × Dict Value)) :
    (postFm P vars st svals sr calls).msgs = [] ∧
    (postFm P vars st svals sr calls).calls = calls ∧
    (postFm P vars st svals sr calls).simRes = some sr ∧
    ((postFm P vars st svals sr calls).exn = false →
       (readStatesFm vars svals sr st.stateValue).2 = false ∧
       (postFm P vars st svals sr calls).st.stateValue
         = (readStatesFm vars svals sr st.stateValue).1 ∧
       sr.times.getLast? = some (postFm P vars st svals sr calls).st.prevFinalTime ∧
       (postFm P vars st svals sr calls).st.parValue = st.parValue) := by
  simp only [postFm]
  split
  · refine ⟨rfl, rfl, rfl, fun h => ?_⟩
    simp at h
  · split
    · refine ⟨rfl, rfl, rfl, fun h => ?_⟩
      simp at h
    · rename_i hplot hread
      split
      · refine ⟨rfl, rfl, rfl, fun h => ?_⟩
        simp at h
      · rename_i t ht
        refine ⟨rfl, rfl, rfl, fun _ => ⟨by simpa using hread, rfl, by rw [ht], rfl⟩⟩

/-! ## Success- and failure-path lemmas for the drivers -/

theorem simuPy_eq_badmode {F : PyFMI} {pl : Dict String} {st : PyState} {T : ℚ}
    {mode : String} (hm : (st.parDict.filter (fun p => isMissing p.2)).isEmpty = true)
    (h1 : ¬ mode ∈ initModes) (h2 : ¬ mode ∈ contModes) :
    simuPy F pl st T mode =
      ⟨{ st with model := F.reset st.model, simulationTime := T },
       [Msg.modeNotCorrect, Msg.noSimulationDone], [], false⟩ := by
  unfold simuPy
  rw [if_pos hm, if_neg h1, if_neg h2]

theorem simuPy_init_exn {F : PyFMI} {pl : Dict String} {st : PyState} {T : ℚ}
    {mode : String} (hm : (st.parDict.filter (fun p => isMissing p.2)).isEmpty = true)
    (hmode : mode ∈ initModes)
    (hsp : (setPars (F.reset st.model) pl st.parDict).2 = true) :
    simuPy F pl st T mode =
      ⟨{ st with model := (setPars (F.reset st.model) pl st.parDict).1, simulationTime := T },
       [], [], true⟩ := by
  rw [simuPy_eq_initMain hm hmode]
  dsimp only
  rw [if_pos hsp]

theorem simuPy_init_success {F : PyFMI} {pl : Dict String} {st : PyState} {T : ℚ}
    {mode : String} (hm : (st.parDict.filter (fun p => isMissing p.2)).isEmpty = true)
    (hmode : mode ∈ initModes)
    (hsp : (setPars (F.reset st.model) pl st.parDict).2 = false) :
    simuPy F pl st T mode =
      postPy F
        { st with model := (F.simulate (setPars (F.reset st.model) pl st.parDict).1 Option.none T).1, simulationTime := T }
        (F.simulate (setPars (F.reset st.model) pl st.parDict).1 Option.none T).2 []
        [((setPars (F.reset st.model) pl st.parDict).1, Option.none, T)] := by
  rw [simuPy_eq_initMain hm hmode]
  dsimp only
  rw [if_neg (by rw [hsp]; simp)]

theorem simuPy_cont_exn1 {F : PyFMI} {pl : Dict String} {st : PyState} {T : ℚ}
    {mode : String} (hm : (st.parDict.filter (fun p => isMissing p.2)).isEmpty = true)
    (hmode : mode ∈ contModes) (h0 : ¬ st.prevFinalTime = 0)
    (hsp : (setPars (F.reset st.model) pl st.parDict).2 = true) :
    simuPy F pl st T mode =
      ⟨{ st with model := (setPars (F.reset st.model) pl st.parDict).1, simulationTime := T },
       [], [], true⟩ := by
  rw [simuPy_eq_contMain hm hmode h0]
  dsimp only
  rw [if_pos hsp]

theorem simuPy_cont_exn2 {F : PyFMI} {pl : Dict String} {st : PyState} {T : ℚ}
    {mode : String} (hm : (st.parDict.filter (fun p => isMissing p.2)).isEmpty = true)
    (hmode : mode ∈ contModes) (h0 : ¬ st.prevFinalTime = 0)
    (hsp : (setPars (F.reset st.model) pl st.parDict).2 = false)
    (hss : (setStatesPy (setPars (F.reset st.model) pl st.parDict).1 st.stateDict).2.2
        = true) :
    simuPy F pl st T mode =
      ⟨{ st with model := (setStatesPy (setPars (F.reset st.model) pl st.parDict).1 st.stateDict).1, simulationTime := T },
       (setStatesPy (setPars (F.reset st.model) pl st.parDict).1 st.stateDict).2.1,
       [], true⟩ := by
  rw [simuPy_eq_contMain hm hmode h0]
  dsimp only
  rw [if_neg (by rw [hsp]; simp), if_pos hss]

theorem simuPy_cont_success {F : PyFMI} {pl : Dict String} {st : PyState} {T : ℚ}
    {mode : String} (hm : (st.parDict.filter (fun p => isMissing p.2)).isEmpty = true)
    (hmode : mode ∈ contModes) (h0 : ¬ st.prevFinalTime = 0)
    (hsp : (setPars (F.reset st.model) pl st.parDict).2 = false)
    (hss : (setStatesPy (setPars (F.reset st.model) pl st.parDict).1 st.stateDict).2.2
        = false) :
    simuPy F pl st T mode =
      postPy F
        { st with model := (F.simulate (setStatesPy (setPars (F.reset st.model) pl st.parDict).1 st.stateDict).1 (some st.prevFinalTime) (st.prevFinalTime + T)).1, simulationTime := T }
        (F.simulate
          (setStatesPy (setPars (F.reset st.model) pl st.parDict).1 st.stateDict).1
          (some st.prevFinalTime) (st.prevFinalTime + T)).2
        (setStatesPy (setPars (F.reset st.model) pl st.parDict).1 st.stateDict).2.1
        [((setStatesPy (setPars (F.reset st.model) pl st.parDict).1 st.stateDict).1,
          some st.prevFinalTime, st.prevFinalTime + T)] := by
  rw [simuPy_eq_contMain hm hmode h0]
  dsimp only
  rw [if_neg (by rw [hsp]; simp), if_neg (by rw [hss]; simp)]

theorem simuFm_eq_badmode {vars : List VarDecl} {O : ℚ → ℚ → Dict Value → SimRes}
    {P : SimRes → Bool} {pl svi : Dict String} {st : FmState} {T : ℚ} {mode : String}
    (h1 : ¬ mode ∈ initModes) (h2 : ¬ mode ∈ contModes) :
    simuFm vars O P pl svi st T mode =
      ⟨st, [Msg.modeNotCorrect, Msg.noSimulationDone], [], Option.none, false⟩ := by
  unfold simuFm
  rw [if_neg h1, if_neg h2]

theorem simuFm_init_exn {vars : List VarDecl} {O : ℚ → ℚ → Dict Value → SimRes}
    {P : SimRes → Bool} {pl svi : Dict String} {st : FmState} {T : ℚ} {mode : String}
    (hmode : mode ∈ initModes) (hexn : (locPairs pl st.parValue).2 = true) :
    simuFm vars O P pl svi st T mode = ⟨st, [], [], Option.none, true⟩ := by
  rw [simuFm_eq_initMain hmode]
  dsimp only
  rw [if_pos hexn]

theorem simuFm_init_success {vars : List VarDecl} {O : ℚ → ℚ → Dict Value → SimRes}
    {P : SimRes → Bool} {pl svi : Dict String} {st : FmState} {T : ℚ} {mode : String}
    (hmode : mode ∈ initModes) (hexn : (locPairs pl st.parValue).2 = false) :
    simuFm vars O P pl svi st T mode =
      postFm P vars st (dfromPairs (locPairs pl st.parValue).1)
        (O 0 T (dfromPairs (locPairs pl st.parValue).1))
        [(0, T, dfromPairs (locPairs pl st.parValue).1)] := by
  rw [simuFm_eq_initMain hmode]
  dsimp only
  rw [if_neg (by rw [hexn]; simp)]

theorem simuFm_cont_exn1 {vars : List VarDecl} {O : ℚ → ℚ → Dict Value → SimRes}
    {P : SimRes → Bool} {pl svi : Dict String} {st : FmState} {T : ℚ} {mode : String}
    (hmode : mode ∈ contModes) (h0 : ¬ st.prevFinalTime = 0)
    (h1 : (delDerived pl (svi.map (fun p => p.2)) st.parValue st.parValue pl).2.2
        = true) :
    simuFm vars O P pl svi st T mode = ⟨st, [], [], Option.none, true⟩ := by
  rw [simuFm_eq_contMain hmode h0]
  dsimp only
  rw [if_pos h1]

theorem simuFm_cont_exn2 {vars : List VarDecl} {O : ℚ → ℚ → Dict Value → SimRes}
    {P : SimRes → Bool} {pl svi : Dict String} {st : FmState} {T : ℚ} {mode : String}
    (hmode : mode ∈ contModes) (h0 : ¬ st.prevFinalTime = 0)
    (h1 : (delDerived pl (svi.map (fun p => p.2)) st.parValue st.parValue pl).2.2
        = false)
    (h2 : (derivedPairs svi st.stateValue).2 = true) :
    simuFm vars O P pl svi st T mode = ⟨st, [], [], Option.none, true⟩ := by
  rw [simuFm_eq_contMain hmode h0]
  dsimp only
  rw [if_neg (by rw [h1]; simp), if_pos h2]

theorem simuFm_cont_exn3 {vars : List VarDecl} {O : ℚ → ℚ → Dict Value → SimRes}
    {P : SimRes → Bool} {pl svi : Dict String} {st : FmState} {T : ℚ} {mode : String}
    (hmode : mode ∈ contModes) (h0 : ¬ st.prevFinalTime = 0)
    (h1 : (delDerived pl (svi.map (fun p => p.2)) st.parValue st.parValue pl).2.2
        = false)
    (h2 : (derivedPairs svi st.stateValue).2 = false)
    (h3 : (locPairs
        (dfromPairs
          ((delDerived pl (svi.map (fun p => p.2)) st.parValue st.parValue pl).2.1
            ++ dfromPairs ((svi.map (fun p => p.2)).map (fun x => (x, x)))))
        (dfromPairs
          ((delDerived pl (svi.map (fun p => p.2)) st.parValue st.parValue pl).1
            ++ (derivedPairs svi st.stateValue).1))).2 = true) :
    simuFm vars O P pl svi st T mode = ⟨st, [], [], Option.none, true⟩ := by
  rw [simuFm_eq_contMain hmode h0]
  dsimp only
  rw [if_neg (by rw [h1]; simp), if_neg (by rw [h2]; simp), if_pos h3]

theorem simuFm_cont_success {vars : List VarDecl} {O : ℚ → ℚ → Dict Value → SimRes}
    {P : SimRes → Bool} {pl svi : Dict String} {st : FmState} {T : ℚ} {mode : String}
    (hmode : mode ∈ contModes) (h0 : ¬ st.prevFinalTime = 0)
    (h1 : (delDerived pl (svi.map (fun p => p.2)) st.parValue st.parValue pl).2.2
        = false)
    (h2 : (derivedPairs svi st.stateValue).2 = false)
    (h3 : (locPairs
        (dfromPairs
          ((delDerived pl (svi.map (fun p => p.2)) st.parValue st.parValue pl).2.1
            ++ dfromPairs ((svi.map (fun p => p.2)).map (fun x => (x, x)))))
        (dfromPairs
          ((delDerived pl (svi.map (fun p => p.2)) st.parValue st.parValue pl).1
            ++ (derivedPairs svi st.stateValue).1))).2 = false) :
    simuFm vars O P pl svi st T mode =
      postFm P vars st
        (dfromPairs (locPairs
          (dfromPairs
            ((delDerived pl (svi.map (fun p => p.2)) st.parValue st.parValue pl).2.1
              ++ dfromPairs ((svi.map (fun p => p.2)).map (fun x => (x, x)))))
          (dfromPairs
            ((delDerived pl (svi.map (fun p => p.2)) st.parValue st.parValue pl).1
              ++ (derivedPairs svi st.stateValue).1))).1)
        (O st.prevFinalTime (st.prevFinalTime + T)
          (dfromPairs (locPairs
            (dfromPairs
              ((delDerived pl (svi.map (fun p => p.2)) st.parValue st.parValue pl).2.1
                ++ dfromPairs ((svi.map (fun p => p.2)).map (fun x => (x, x)))))
            (dfromPairs
              ((delDerived pl (svi.map (fun p => p.2)) st.parValue st.parValue pl).1
                ++ (derivedPairs svi st.stateValue).1))).1))
        [(st.prevFinalTime, st.prevFinalTime + T,
          dfromPairs (locPairs
            (dfromPairs
              ((delDerived pl (svi.map (fun p => p.2)) st.parValue st.parValue pl).2.1
                ++ dfromPairs ((svi.map (fun p => p.2)).map (fun x => (x, x)))))
            (dfromPairs
              ((delDerived pl (svi.map (fun p => p.2)) st.parValue st.parValue pl).1
                ++ (derivedPairs svi st.stateValue).1))).1)] := by
  rw [simuFm_eq_contMain hmode h0]
  dsimp only
  rw [if_neg (by rw [h1]; simp), if_neg (by rw [h2]; simp), if_neg (by rw [h3]; simp)]

/-! ## The claims -/

/-- Claim C2: for every tracked state path, the derived initial-value path is
computed as follows: a path not ending in a closing bracket has a trailing
integrator-output marker (`I.y` or `D.x`) dropped together with its enclosing
10-character suffix and `I_start` respectively `D_start` appended at the
truncation point, and otherwise gets `_start` appended to the whole path; a
path ending in a bracketed index of 1 to 3 digits has `_start` inserted
immediately before the opening bracket. -/
theorem claim2_suffix_substitution :
    (∀ b sfx : List Char, sfx.length = 10 → lastSlice sfx 3 = "I.y".toList →
       svikey (b ++ sfx) = Except.ok (some (b ++ "I_start".toList))) ∧
    (∀ b sfx : List Char, sfx.length = 10 → lastSlice sfx 3 = "D.x".toList →
       svikey (b ++ sfx) = Except.ok (some (b ++ "D_start".toList))) ∧
    (∀ cs : List Char, cs ≠ [] → cs.getLast? ≠ some ']' →
       lastSlice cs 3 ≠ "I.y".toList → lastSlice cs 3 ≠ "D.x".toList →
       svikey cs = Except.ok (some (cs ++ "_start".toList))) ∧
    (∀ b ds : List Char, 1 ≤ ds.length → ds.length ≤ 3 → (∀ c ∈ ds, c.isDigit = true) →
       svikey (b ++ '[' :: (ds ++ [']'])) =
         Except.ok (some (b ++ "_start".toList ++ '[' :: (ds ++ [']'])))) := by
  refine ⟨fun b sfx h10 h3 => svikey_Iy h10 h3,
    fun b sfx h10 h3 => svikey_Dx h10 h3,
    fun cs h1 h2 h3 h4 => svikey_plain h1 h2 h3 h4, ?_⟩
  intro b ds h1 h3 hd
  rcases ds with _ | ⟨d1, ds⟩
  · simp at h1
  rcases ds with _ | ⟨d2, ds⟩
  · simpa using svikey_br1 b d1
  rcases ds with _ | ⟨d3, ds⟩
  · simpa using svikey_br2 b d2 (hd d1 (by simp))
  rcases ds with _ | ⟨d4, ds⟩
  · simpa using svikey_br3 b d3 (hd d1 (by simp)) (hd d2 (by simp))
  · simp at h3

/-- Witness for C2 at concrete state paths of each kind. -/
theorem claim2_witness :
    svikey ("m.1234567I.y".toList) = Except.ok (some ("m.I_start".toList)) ∧
    svikey ("bioreactor.V".toList) = Except.ok (some ("bioreactor.V_start".toList)) ∧
    svikey ("bioreactor.m[2]".toList) = Except.ok (some ("bioreactor.m_start[2]".toList)) := by
  refine ⟨?_, ?_, ?_⟩
  · have h := claim2_suffix_substitution.1 "m.".toList "1234567I.y".toList
      (by decide) (by decide)
    have e1 : "m.".toList ++ "1234567I.y".toList = "m.1234567I.y".toList := by decide
    have e2 : "m.".toList ++ "I_start".toList = "m.I_start".toList := by decide
    rw [e1, e2] at h
    exact h
  · have h := claim2_suffix_substitution.2.2.1 "bioreactor.V".toList
      (by decide) (by decide) (by decide) (by decide)
    have e : "bioreactor.V".toList ++ "_start".toList = "bioreactor.V_start".toList := by
      decide
    rw [e] at h
    exact h
  · have h := claim2_suffix_substitution.2.2.2 "bioreactor.m".toList ['2']
      (by decide) (by decide) (by decide)
    have e1 : "bioreactor.m".toList ++ '[' :: (['2'] ++ [']'])
        = "bioreactor.m[2]".toList := by decide
    have e2 : "bioreactor.m".toList ++ "_start".toList ++ '[' :: (['2'] ++ [']'])
        = "bioreactor.m_start[2]".toList := by decide
    rw [e1, e2] at h
    exact h

/-- Claim C3: `par` updates every known key to the given value (also when
unknown keys are present in the same call), leaves the store unchanged at
unknown keys, and emits exactly one unrecognized-parameter error per unknown
key present in the overrides and none otherwise. -/
theorem claim3_setParameters (pv : Dict Value) (pc : List Check)
    (ov : List (String × Value)) (k : String) (hnd : (dkeys ov).Nodup) :
    (∀ v, dhas pv k = true → dget ov k = some v →
       dget (par pv pc ov).store k = some v) ∧
    (dhas pv k = false →
       dget (par pv pc ov).store k = dget pv k ∧
       (dhas ov k = true → (par pv pc ov).msgs.count (Msg.unknownPar k) = 1) ∧
       (dhas ov k = false → (par pv pc ov).msgs.count (Msg.unknownPar k) = 0)) ∧
    (dhas pv k = true → (par pv pc ov).msgs.count (Msg.unknownPar k) = 0) := by
  have hinj : ∀ a b : String, Msg.unknownPar a = Msg.unknownPar b → a = b := by
    intro a b h
    cases h
    rfl
  have hstore : (par pv pc ov).store = dupdate pv (ov.filter (fun p => dhas pv p.1)) := by
    simp only [par]
    split <;> rfl
  have hcount : (par pv pc ov).msgs.count (Msg.unknownPar k)
      = ((ov.filter (fun p => ¬ dhas pv p.1)).map (fun p => Msg.unknownPar p.1)).count
          (Msg.unknownPar k) := by
    simp only [par]
    split
    · rfl
    · rw [List.count_append]
      have : ((pc.filter fun c =>
            evalCheck (dupdate pv (ov.filter fun p => dhas pv p.1)) c = some false).map
            Msg.checkFailed).count (Msg.unknownPar k) = 0 := by
        rw [List.count_eq_zero]
        intro hmem
        rcases List.mem_map.mp hmem with ⟨c, _, hc⟩
        cases hc
      rw [this]
      simp
  have hcount2 : (par pv pc ov).msgs.count (Msg.unknownPar k)
      = if (¬ dhas pv k : Bool) = true then (dkeys ov).count k else 0 := by
    rw [hcount]
    exact count_keymap_filtered ov (fun k' => (¬ dhas pv k' : Bool))
      (fun s => Msg.unknownPar s) hinj k
  refine ⟨?_, ?_, ?_⟩
  · intro v hpv hov
    rw [hstore]
    have hmem : (k, v) ∈ ov := dget_mem hov
    have hmemf : (k, v) ∈ ov.filter (fun p => dhas pv p.1) :=
      List.mem_filter.mpr ⟨hmem, by simpa using hpv⟩
    have hhasf : dhas (ov.filter (fun p => dhas pv p.1)) k = true :=
      (dhas_iff_mem _ k).mpr ⟨v, hmemf⟩
    have hconst : ∀ p ∈ ov.filter (fun p => dhas pv p.1), p.1 = k → p.2 = v := by
      intro p hp hpk
      have hpov : p ∈ ov := (List.mem_filter.mp hp).1
      have : dget ov k = some p.2 := by
        apply dget_eq_some_of_mem_nodup hnd
        have : p = (k, p.2) := by cases p; simp_all
        rwa [this] at hpov
      rw [hov] at this
      exact (Option.some.inj this).symm
    rw [dget_dupdate_const hconst, if_pos hhasf]
  · intro hpv
    refine ⟨?_, ?_, ?_⟩
    · rw [hstore]
      have hno : dhas (ov.filter (fun p => dhas pv p.1)) k = false := by
        rcases hh : dhas (ov.filter (fun p => dhas pv p.1)) k with _ | _
        · rfl
        · exfalso
          rcases (dhas_iff_mem _ k).mp hh with ⟨v, hv⟩
          have := (List.mem_filter.mp hv).2
          simp only at this
          rw [hpv] at this
          cases this
      have hconst : ∀ p ∈ ov.filter (fun p => dhas pv p.1), p.1 = k
          → p.2 = (Value.num 0) := by
        intro p hp hpk
        exfalso
        have := (List.mem_filter.mp hp).2
        have hpk2 : dhas pv p.1 = true := by simpa using this
        rw [hpk, hpv] at hpk2
        cases hpk2
      rw [dget_dupdate_const hconst, if_neg (by rw [hno]; simp)]
    · intro hov
      rw [hcount2, if_pos (by simp [hpv])]
      rcases (dhas_iff_mem ov k).mp hov with ⟨v, hv⟩
      have hkmem : k ∈ dkeys ov := List.mem_map.mpr ⟨(k, v), hv, rfl⟩
      exact List.count_eq_one_of_mem hnd hkmem
    · intro hov
      rw [hcount2, if_pos (by simp [hpv])]
      rw [List.count_eq_zero]
      intro hkmem
      rcases List.mem_map.mp hkmem with ⟨p, hp, hpk⟩
      have : dhas ov k = true := (dhas_iff_mem ov k).mpr ⟨p.2, by
        have : p = (k, p.2) := by cases p; simp_all
        rwa [this] at hp⟩
      rw [hov] at this
      cases this
  · intro hpv
    rw [hcount2, if_neg (by simp [hpv])]

/-- Witness for C3: a call with one known and one unknown key. -/
theorem claim3_witness :
    dget (par parValueD parCheckD
        [("mum", Value.num 2), ("typo", Value.num 3)]).store "mum" = some (Value.num 2) ∧
    dget (par parValueD parCheckD
        [("mum", Value.num 2), ("typo", Value.num 3)]).store "typo" = dget parValueD "typo" ∧
    (par parValueD parCheckD
        [("mum", Value.num 2), ("typo", Value.num 3)]).msgs.count (Msg.unknownPar "typo")
      = 1 := by
  have h := claim3_setParameters parValueD parCheckD
    [("mum", Value.num 2), ("typo", Value.num 3)] "mum" (by decide)
  have h2 := claim3_setParameters parValueD parCheckD
    [("mum", Value.num 2), ("typo", Value.num 3)] "typo" (by decide)
  exact ⟨h.1 (Value.num 2) (by decide) (by decide),
    (h2.2.1 (by decide)).1, (h2.2.1 (by decide)).2.1 (by decide)⟩

/-- Claim C4: `par({'V_start': -1})` records `-1` and reports the violated
`V_start > 0` requirement without rolling back or raising; in general the
requirement phase never alters the store, and a violation only produces a
report over the already-updated store. -/
theorem claim4_failsoft :
    dget (par parValueD parCheckD [("V_start", Value.num (-1))]).store "V_start"
        = some (Value.num (-1)) ∧
    Msg.checkFailed ⟨"V_start", Cmp.gt, 0⟩
        ∈ (par parValueD parCheckD [("V_start", Value.num (-1))]).msgs ∧
    (par parValueD parCheckD [("V_start", Value.num (-1))]).exn = false ∧
    (∀ pv pc ov, (par pv pc ov).store
        = dupdate pv (ov.filter (fun p => dhas pv p.1))) ∧
    (∀ pv pc ov, (par pv pc ov).exn = false →
       (par pv pc ov).msgs
         = ((ov.filter (fun p => ¬ dhas pv p.1)).map (fun p => Msg.unknownPar p.1))
           ++ (pc.filter (fun c =>
                 evalCheck (dupdate pv (ov.filter (fun p => dhas pv p.1))) c
                   = some false)).map Msg.checkFailed) := by
  refine ⟨by decide, by decide, by decide, ?_, ?_⟩
  · intro pv pc ov
    simp only [par]
    split <;> rfl
  · intro pv pc ov
    simp only [par]
    split
    · intro h
      simp at h
    · intro _
      rfl

/-- Witness for C4's general conjuncts at the concrete `{'V_start': -1}`
call. -/
theorem claim4_witness :
    (par parValueD parCheckD [("V_start", Value.num (-1))]).store
        = dupdate parValueD [("V_start", Value.num (-1))] ∧
    (par parValueD parCheckD [("V_start", Value.num (-1))]).msgs
        = [Msg.checkFailed ⟨"V_start", Cmp.gt, 0⟩] := by
  constructor
  · have h := claim4_failsoft.2.2.2.1 parValueD parCheckD [("V_start", Value.num (-1))]
    rw [h]
    decide
  · have h := claim4_failsoft.2.2.2.2 parValueD parCheckD [("V_start", Value.num (-1))]
      (by decide)
    rw [h]
    decide

/-- Claim C8: `init` records a key's value in the parameter store only when
the key contains the `_start` marker; every other key is reported once and
ignored, leaving the store unchanged at that key. -/
theorem claim8_setInitialValues (pv : Dict Value) (ov : List (String × Value))
    (k : String) (hnd : (dkeys ov).Nodup) :
    (containsStart k = true → ∀ v, dget ov k = some v →
       dget (initIV pv ov).1 k = some v) ∧
    (containsStart k = false →
       dget (initIV pv ov).1 k = dget pv k ∧
       (dhas ov k = true → (initIV pv ov).2.count (Msg.notInitialValue k) = 1) ∧
       (dhas ov k = false → (initIV pv ov).2.count (Msg.notInitialValue k) = 0)) ∧
    (containsStart k = true → (initIV pv ov).2.count (Msg.notInitialValue k) = 0) := by
  have hinj : ∀ a b : String, Msg.notInitialValue a = Msg.notInitialValue b → a = b := by
    intro a b h
    cases h
    rfl
  have hcount : (initIV pv ov).2.count (Msg.notInitialValue k)
      = if (¬ containsStart k : Bool) = true then (dkeys ov).count k else 0 :=
    count_keymap_filtered ov (fun k' => (¬ containsStart k' : Bool))
      (fun s => Msg.notInitialValue s) hinj k
  refine ⟨?_, ?_, ?_⟩
  · intro hk v hov
    have hmem : (k, v) ∈ ov := dget_mem hov
    have hmemf : (k, v) ∈ ov.filter (fun p => containsStart p.1) :=
      List.mem_filter.mpr ⟨hmem, by simpa using hk⟩
    have hhasf : dhas (ov.filter (fun p => containsStart p.1)) k = true :=
      (dhas_iff_mem _ k).mpr ⟨v, hmemf⟩
    have hconst : ∀ p ∈ ov.filter (fun p => containsStart p.1), p.1 = k → p.2 = v := by
      intro p hp hpk
      have hpov : p ∈ ov := (List.mem_filter.mp hp).1
      have : dget ov k = some p.2 := by
        apply dget_eq_some_of_mem_nodup hnd
        have : p = (k, p.2) := by cases p; simp_all
        rwa [this] at hpov
      rw [hov] at this
      exact (Option.some.inj this).symm
    show dget (dupdate pv (ov.filter (fun p => containsStart p.1))) k = some v
    rw [dget_dupdate_const hconst, if_pos hhasf]
  · intro hk
    refine ⟨?_, ?_, ?_⟩
    · have hno : dhas (ov.filter (fun p => containsStart p.1)) k = false := by
        rcases hh : dhas (ov.filter (fun p => containsStart p.1)) k with _ | _
        · rfl
        · exfalso
          rcases (dhas_iff_mem _ k).mp hh with ⟨v, hv⟩
          have := (List.mem_filter.mp hv).2
          simp only at this
          rw [hk] at this
          cases this
      have hconst : ∀ p ∈ ov.filter (fun p => containsStart p.1), p.1 = k
          → p.2 = (Value.num 0) := by
        intro p hp hpk
        exfalso
        have := (List.mem_filter.mp hp).2
        have hpk2 : containsStart p.1 = true := by simpa using this
        rw [hpk, hk] at hpk2
        cases hpk2
      show dget (dupdate pv (ov.filter (fun p => containsStart p.1))) k = dget pv k
      rw [dget_dupdate_const hconst, if_neg (by rw [hno]; simp)]
    · intro hov
      rw [hcount, if_pos (by simp [hk])]
      rcases (dhas_iff_mem ov k).mp hov with ⟨v, hv⟩
      have hkmem : k ∈ dkeys ov := List.mem_map.mpr ⟨(k, v), hv, rfl⟩
      exact List.count_eq_one_of_mem hnd hkmem
    · intro hov
      rw [hcount, if_pos (by simp [hk])]
      rw [List.count_eq_zero]
      intro hkmem
      rcases List.mem_map.mp hkmem with ⟨p, hp, hpk⟩
      have : dhas ov k = true := (dhas_iff_mem ov k).mpr ⟨p.2, by
        have : p = (k, p.2) := by cases p; simp_all
        rwa [this] at hp⟩
      rw [hov] at this
      cases this
  · intro hk
    rw [hcount, if_neg (by simp [hk])]

/-- Witness for C8: one accepted `_start` key (even a brand-new one) and one
rejected plain key. -/
theorem claim8_witness :
    dget (initIV parValueD
        [("VX_start", Value.num 2), ("mum", Value.num 1)]).1 "VX_start"
      = some (Value.num 2) ∧
    dget (initIV parValueD
        [("VX_start", Value.num 2), ("mum", Value.num 1)]).1 "mum"
      = dget parValueD "mum" ∧
    (initIV parValueD
        [("VX_start", Value.num 2), ("mum", Value.num 1)]).2.count
        (Msg.notInitialValue "mum") = 1 := by
  have h := claim8_setInitialValues parValueD
    [("VX_start", Value.num 2), ("mum", Value.num 1)] "VX_start" (by decide)
  have h2 := claim8_setInitialValues parValueD
    [("VX_start", Value.num 2), ("mum", Value.num 1)] "mum" (by decide)
  exact ⟨h.1 (by decide) (Value.num 2) (by decide),
    (h2.2.1 (by decide)).1, (h2.2.1 (by decide)).2.1 (by decide)⟩

/-- Claim C9 (the claim is right, the code has a slip): `newplot` is meant to
select one of the four layouts and report `Plot window type not correct`
otherwise, but the `PhasePlane` branch tests the undefined name `diagram`, so
the call `newplot(plotType='PhasePlane')` raises `NameError` instead of
producing the phase-plane layout, every unknown kind raises instead of
reporting, and the report branch is unreachable. -/
theorem claim9_newplot_phaseplane :
    newplot "PhasePlane" = PlotOutcome.nameError ∧
    newplot "TimeSeries" = PlotOutcome.layout Layout.timeSeries ∧
    newplot "TimeSeries2" = PlotOutcome.layout Layout.timeSeries2 ∧
    newplot "Extended" = PlotOutcome.layout Layout.extended ∧
    (∀ s : String, newplot s ≠ PlotOutcome.report) := by
  refine ⟨by decide, by decide, by decide, by decide, ?_⟩
  intro s
  unfold newplot
  split_ifs <;> decide

/-- Claim C1, amended: every continuation-mode invocation with
`prevFinalTime = 0` aborts — no simulate call, no exception, and the
parameter store, the state store and `prevFinalTime` are unchanged; the
pyfmi variant reports the ordering error only when no parameter value is
missing (its missing-value check precedes the mode dispatch and wins
otherwise), while the fmpy variant always reports it. -/
theorem claim1_cont_ordering :
    (∀ (F : PyFMI) (pl : Dict String) (st : PyState) (T : ℚ) (mode : String),
       mode ∈ contModes → st.prevFinalTime = 0 →
       (simuPy F pl st T mode).calls = [] ∧
       (simuPy F pl st T mode).exn = false ∧
       (simuPy F pl st T mode).st.parDict = st.parDict ∧
       (simuPy F pl st T mode).st.stateDict = st.stateDict ∧
       (simuPy F pl st T mode).st.prevFinalTime = 0 ∧
       ((st.parDict.filter (fun p => isMissing p.2)).isEmpty = true →
          Msg.contBeforeInit ∈ (simuPy F pl st T mode).msgs) ∧
       ((st.parDict.filter (fun p => isMissing p.2)).isEmpty = false →
          (simuPy F pl st T mode).msgs
            = (st.parDict.filter (fun p => isMissing p.2)).map
                (fun p => Msg.valueMissing p.1))) ∧
    (∀ (vars : List VarDecl) (O : ℚ → ℚ → Dict Value → SimRes) (P : SimRes → Bool)
       (pl svi : Dict String) (st : FmState) (T : ℚ) (mode : String),
       mode ∈ contModes → st.prevFinalTime = 0 →
       simuFm vars O P pl svi st T mode
         = ⟨st, [Msg.contBeforeInit, Msg.noSimulationDone], [], Option.none, false⟩) := by
  constructor
  · intro F pl st T mode hmode h0
    by_cases hm : (st.parDict.filter (fun p => isMissing p.2)).isEmpty = true
    · rw [simuPy_eq_cont0 hm hmode h0]
      refine ⟨rfl, rfl, rfl, rfl, h0, fun _ => by simp, fun hf => ?_⟩
      rw [hm] at hf
      cases hf
    · rw [simuPy_eq_missing hm]
      exact ⟨rfl, rfl, rfl, rfl, h0, fun ht => absurd ht hm, fun _ => rfl⟩
  · intro vars O P pl svi st T mode hmode h0
    exact simuFm_eq_cont0 hmode h0

/-- Counterexample for C1 as stated: a pyfmi continuation call with
`prevFinalTime = 0` and a missing parameter value aborts with the
missing-value report instead of the claimed ordering error. -/
theorem claim1_counterexample :
    (simuPy pyFix parLocationD
        ⟨mFix, [("mum", Value.none)], [], 0, 12⟩ 12 "cont").calls = [] ∧
    Msg.contBeforeInit ∉
      (simuPy pyFix parLocationD
        ⟨mFix, [("mum", Value.none)], [], 0, 12⟩ 12 "cont").msgs := by decide

/-- Witness for C1 at a concrete continuation call for both variants. -/
theorem claim1_witness :
    (simuPy pyFix parLocationD ⟨mFix, [("mum", Value.num 0)], [], 0, 12⟩ 12 "cont").calls
      = [] ∧
    Msg.contBeforeInit ∈
      (simuPy pyFix parLocationD
        ⟨mFix, [("mum", Value.num 0)], [], 0, 12⟩ 12 "cont").msgs ∧
    simuFm varsFix fmOFix plotFix parLocationD [] ⟨[("mum", Value.num 0)], [], 0⟩ 12 "cont"
      = ⟨⟨[("mum", Value.num 0)], [], 0⟩, [Msg.contBeforeInit, Msg.noSimulationDone], [],
         Option.none, false⟩ := by
  have h := claim1_cont_ordering.1 pyFix parLocationD
    ⟨mFix, [("mum", Value.num 0)], [], 0, 12⟩ 12 "cont" (by decide) rfl
  exact ⟨h.1, h.2.2.2.2.2.1 (by decide),
    claim1_cont_ordering.2 varsFix fmOFix plotFix parLocationD []
      ⟨[("mum", Value.num 0)], [], 0⟩ 12 "cont" (by decide) rfl⟩

/-- Claim C6, amended: only the pyfmi variant checks for missing values —
there, in any mode (the check precedes the mode dispatch), each parameter
whose value is missing is reported and the run aborts before anything else
happens; the fmpy `simu` performs no missing-value check and invokes
`simulate_fmu` regardless. -/
theorem claim6_value_missing :
    (∀ (F : PyFMI) (pl : Dict String) (st : PyState) (T : ℚ) (mode : String),
       (st.parDict.filter (fun p => isMissing p.2)).isEmpty = false →
       simuPy F pl st T mode
         = ⟨{ st with simulationTime := T },
            (st.parDict.filter (fun p => isMissing p.2)).map
              (fun p => Msg.valueMissing p.1),
            [], false⟩) ∧
    (∀ (vars : List VarDecl) (O : ℚ → ℚ → Dict Value → SimRes) (P : SimRes → Bool)
       (pl svi : Dict String) (st : FmState) (T : ℚ) (mode : String),
       mode ∈ initModes → (locPairs pl st.parValue).2 = false →
       (simuFm vars O P pl svi st T mode).calls
         = [(0, T, dfromPairs (locPairs pl st.parValue).1)]) := by
  constructor
  · intro F pl st T mode hm
    exact simuPy_eq_missing (by rw [hm]; simp)
  · intro vars O P pl svi st T mode hmode hexn
    rw [simuFm_init_success hmode hexn]
    exact (postFm_spec _ _ _ _ _ _).2.1

/-- Counterexample for C6 as stated: the fmpy `simu` in `init` mode with a
missing (`None`) parameter value emits no missing-value report and still
invokes the external simulate entry point. -/
theorem claim6_counterexample :
    (simuFm varsFix fmOFix plotFix parLocationD []
        ⟨[("mum", Value.none)], [], 0⟩ 12 "init").calls.length = 1 ∧
    (simuFm varsFix fmOFix plotFix parLocationD []
        ⟨[("mum", Value.none)], [], 0⟩ 12 "init").msgs = [] := by decide

/-- Witness for C6 at concrete calls of both variants. -/
theorem claim6_witness :
    simuPy pyFix parLocationD ⟨mFix, [("mum", Value.none)], [], 3, 12⟩ 12 "init"
      = ⟨⟨mFix, [("mum", Value.none)], [], 3, 12⟩, [Msg.valueMissing "mum"], [], false⟩ ∧
    (simuFm varsFix fmOFix plotFix parLocationD []
        ⟨[("mum", Value.none)], [], 0⟩ 12 "init").calls
      = [(0, 12, dfromPairs (locPairs parLocationD [("mum", Value.none)]).1)] := by
  constructor
  · have h := claim6_value_missing.1 pyFix parLocationD
      ⟨mFix, [("mum", Value.none)], [], 3, 12⟩ 12 "init" (by decide)
    rw [h]
    decide
  · exact claim6_value_missing.2 varsFix fmOFix plotFix parLocationD []
      ⟨[("mum", Value.none)], [], 0⟩ 12 "init" (by decide) (by decide)

/-- Claim C7, amended: a tracked state path with a bracketed index wider
than 3 digits is reported as unsupported, but the run is not aborted.  In
the pyfmi variant the remapping loop prints the report and breaks, and the
continuation run still invokes simulate; in the fmpy variant the report
happens when the derived-path table is built at load time, the table then
lacks the path, and a continuation run dies with an uncaught `KeyError`
before any simulate call instead of a report-and-abort. -/
theorem claim7_wide_index :
    (∀ (F : PyFMI) (pl : Dict String) (st : PyState) (T : ℚ) (mode : String)
       (pre rest : List (String × Value)) (bk : String) (v : Value),
       (st.parDict.filter (fun p => isMissing p.2)).isEmpty = true →
       mode ∈ contModes → ¬ st.prevFinalTime = 0 →
       (setPars (F.reset st.model) pl st.parDict).2 = false →
       st.stateDict = pre ++ (bk, v) :: rest →
       (∀ e ∈ pre, ∃ q, svikey e.1.toList = Except.ok (some q)) →
       svikey bk.toList = Except.ok Option.none →
       Msg.tooManyStates ∈ (simuPy F pl st T mode).msgs ∧
       (simuPy F pl st T mode).calls.length = 1) ∧
    (∀ (vars : List VarDecl) (O : ℚ → ℚ → Dict Value → SimRes) (P : SimRes → Bool)
       (pl svi : Dict String) (st : FmState) (T : ℚ) (mode : String)
       (k : String) (w : Value),
       mode ∈ contModes → ¬ st.prevFinalTime = 0 →
       (∀ e ∈ st.parValue, (dget pl e.1).isSome = true) →
       (k, w) ∈ st.stateValue → dget svi k = Option.none →
       simuFm vars O P pl svi st T mode = ⟨st, [], [], Option.none, true⟩) := by
  constructor
  · intro F pl st T mode pre rest bk v hm hmode h0 hsp hsd hpre hbk
    obtain ⟨m', hbreak⟩ :=
      setStatesPy_break hpre hbk (setPars (F.reset st.model) pl st.parDict).1
    have hss : (setStatesPy (setPars (F.reset st.model) pl st.parDict).1
        st.stateDict).2.2 = false := by
      rw [hsd, hbreak]
    rw [simuPy_cont_success hm hmode h0 hsp hss]
    constructor
    · rw [(postPy_spec _ _ _ _ _).1]
      rw [hsd, hbreak]
      simp
    · rw [(postPy_spec _ _ _ _ _).2.1]
      rfl
  · intro vars O P pl svi st T mode k w hmode h0 hlocs hmem hnone
    have h1 : (delDerived pl (svi.map (fun p => p.2)) st.parValue st.parValue pl).2.2
        = false := delDerived_exn_false hlocs _ _
    have h2 : (derivedPairs svi st.stateValue).2 = true := derivedPairs_exn_true hmem hnone
    exact simuFm_cont_exn2 hmode h0 h1 h2

/-- Counterexample for C7 as stated: the pyfmi continuation run with a
4-digit-indexed state path prints the report yet still calls simulate. -/
theorem claim7_counterexample :
    Msg.tooManyStates ∈ (simuPy pyFix parLocationD
        ⟨mFix, [("mum", Value.num 0)], [("x[1234]", Value.num 1)], 5, 12⟩
        12 "cont").msgs ∧
    (simuPy pyFix parLocationD
        ⟨mFix, [("mum", Value.num 0)], [("x[1234]", Value.num 1)], 5, 12⟩
        12 "cont").calls.length = 1 := by decide

/-- Witness for C7 at concrete continuation runs of both variants. -/
theorem claim7_witness :
    Msg.tooManyStates ∈ (simuPy pyFix parLocationD
        ⟨mFix, [("mum", Value.num 0)], [("y[56789]", Value.num 2)], 7, 12⟩
        12 "cont").msgs ∧
    (simuPy pyFix parLocationD
        ⟨mFix, [("mum", Value.num 0)], [("y[56789]", Value.num 2)], 7, 12⟩
        12 "cont").calls.length = 1 ∧
    simuFm varsFix fmOFix plotFix parLocationD []
        ⟨[("mum", Value.num 0)], [("bioreactor.V", Value.num 7)], 5⟩ 12 "cont"
      = ⟨⟨[("mum", Value.num 0)], [("bioreactor.V", Value.num 7)], 5⟩, [], [],
         Option.none, true⟩ := by
  have h := claim7_wide_index.1 pyFix parLocationD
    ⟨mFix, [("mum", Value.num 0)], [("y[56789]", Value.num 2)], 7, 12⟩ 12 "cont"
    [] [] "y[56789]" (Value.num 2)
    (by decide) (by decide) (by decide) (by decide) rfl (by simp) rfl
  exact ⟨h.1, h.2,
    claim7_wide_index.2 varsFix fmOFix plotFix parLocationD []
      ⟨[("mum", Value.num 0)], [("bioreactor.V", Value.num 7)], 5⟩ 12 "cont"
      "bioreactor.V" (Value.num 7)
      (by decide) (by decide) (by decide) (by simp) (by decide)⟩

/-- After a successful pyfmi post-run block, every tracked state holds the
model's current value and `prevFinalTime` is the model time. -/
theorem postPy_state_stored (F : PyFMI) (st' : PyState) (ts : List ℚ) (ms : List Msg)
    (calls : List (Model × Option ℚ × ℚ))
    (hexn : (postPy F st' ts ms calls).exn = false) :
    (∀ k, dhas st'.stateDict k = true →
       dget (postPy F st' ts ms calls).st.stateDict k
         = dget (postPy F st' ts ms calls).st.model.vals k) ∧
    (postPy F st' ts ms calls).st.prevFinalTime
      = (postPy F st' ts ms calls).st.model.time := by
  obtain ⟨hm1, hpf, hrd, hsd⟩ := (postPy_spec F st' ts ms calls).2.2 hexn
  constructor
  · intro k hk
    rw [hsd, hm1]
    exact readStatesPy_get hrd hk
  · rw [hpf, hm1]

/-- After a successful fmpy post-run block, `prevFinalTime` is the last time
of the result table, and every tracked continuous state path absent from
`start_values` holds the last entry of its result column. -/
theorem postFm_state_stored (P : SimRes → Bool) (vars : List VarDecl) (st' : FmState)
    (svals : Dict Value) (sr : SimRes) (calls : List (ℚ × ℚ × Dict Value))
    (hexn : (postFm P vars st' svals sr calls).exn = false) :
    sr.times.getLast? = some (postFm P vars st' svals sr calls).st.prevFinalTime ∧
    (∀ k col, dhas st'.stateValue k = true →
       (∃ w ∈ vars, w.name = k) →
       (∀ w ∈ vars, w.name = k → w.variability = "continuous") →
       dhas svals k = false →
       dget sr.cols k = some col →
       dget (postFm P vars st' svals sr calls).st.stateValue k = col.getLast?) := by
  obtain ⟨hrd, hsv, hts, hpv⟩ := (postFm_spec P vars st' svals sr calls).2.2.2 hexn
  refine ⟨hts, ?_⟩
  intro k col hk hex hcont hsv2 hcol
  rcases readStatesFm_get hrd hk with ⟨nv, hmodel, hget⟩
  rw [hsv, hget]
  rw [model_get_continuous hex hcont hsv2 hcol] at hmodel
  exact hmodel.symm

/-- Claim C5: after every successful run (no exception, simulate invoked) in
either mode, the driver stores every tracked state's latest value read back
from the simulator (pyfmi: the model's current value; fmpy: the last entry
of the path's result-table column, for continuous paths outside
`start_values`) and records the run's final time as `prevFinalTime`. -/
theorem claim5_store_final_state :
    (∀ (F : PyFMI) (pl : Dict String) (st : PyState) (T : ℚ) (mode : String),
       (simuPy F pl st T mode).exn = false →
       (simuPy F pl st T mode).calls ≠ [] →
       (∀ k, dhas st.stateDict k = true →
          dget (simuPy F pl st T mode).st.stateDict k
            = dget (simuPy F pl st T mode).st.model.vals k) ∧
       (simuPy F pl st T mode).st.prevFinalTime
         = (simuPy F pl st T mode).st.model.time) ∧
    (∀ (vars : List VarDecl) (O : ℚ → ℚ → Dict Value → SimRes) (P : SimRes → Bool)
       (pl svi : Dict String) (st : FmState) (T : ℚ) (mode : String),
       (simuFm vars O P pl svi st T mode).exn = false →
       ∀ a b sv, (simuFm vars O P pl svi st T mode).calls = [(a, b, sv)] →
       ∃ sr, (simuFm vars O P pl svi st T mode).simRes = some sr ∧
         sr.times.getLast? = some (simuFm vars O P pl svi st T mode).st.prevFinalTime ∧
         (∀ k col, dhas st.stateValue k = true →
            (∃ w ∈ vars, w.name = k) →
            (∀ w ∈ vars, w.name = k → w.variability = "continuous") →
            dhas sv k = false →
            dget sr.cols k = some col →
            dget (simuFm vars O P pl svi st T mode).st.stateValue k = col.getLast?)) := by
  constructor
  · intro F pl st T mode hexn hcalls
    by_cases hm : (st.parDict.filter (fun p => isMissing p.2)).isEmpty = true
    · by_cases hmode1 : mode ∈ initModes
      · by_cases hsp : (setPars (F.reset st.model) pl st.parDict).2 = true
        · rw [simuPy_init_exn hm hmode1 hsp] at hexn
          simp at hexn
        · have hsp' : (setPars (F.reset st.model) pl st.parDict).2 = false := by
            simpa using hsp
          rw [simuPy_init_success hm hmode1 hsp'] at hexn ⊢
          exact postPy_state_stored _ _ _ _ _ hexn
      · by_cases hmode2 : mode ∈ contModes
        · by_cases h0 : st.prevFinalTime = 0
          · rw [simuPy_eq_cont0 hm hmode2 h0] at hcalls
            exact absurd rfl hcalls
          · by_cases hsp : (setPars (F.reset st.model) pl st.parDict).2 = true
            · rw [simuPy_cont_exn1 hm hmode2 h0 hsp] at hexn
              simp at hexn
            · have hsp' : (setPars (F.reset st.model) pl st.parDict).2 = false := by
                simpa using hsp
              by_cases hss : (setStatesPy (setPars (F.reset st.model) pl st.parDict).1
                  st.stateDict).2.2 = true
              · rw [simuPy_cont_exn2 hm hmode2 h0 hsp' hss] at hexn
                simp at hexn
              · have hss' : (setStatesPy (setPars (F.reset st.model) pl st.parDict).1
                    st.stateDict).2.2 = false := by simpa using hss
                rw [simuPy_cont_success hm hmode2 h0 hsp' hss'] at hexn ⊢
                exact postPy_state_stored _ _ _ _ _ hexn
        · rw [simuPy_eq_badmode hm hmode1 hmode2] at hcalls
          exact absurd rfl hcalls
    · rw [simuPy_eq_missing hm] at hcalls
      exact absurd rfl hcalls
  · intro vars O P pl svi st T mode hexn a b sv hcalls
    by_cases hmode1 : mode ∈ initModes
    · by_cases hle : (locPairs pl st.parValue).2 = true
      · rw [simuFm_init_exn hmode1 hle] at hexn
        simp at hexn
      · have hle' : (locPairs pl st.parValue).2 = false := by simpa using hle
        rw [simuFm_init_success hmode1 hle'] at hexn hcalls ⊢
        rw [(postFm_spec _ _ _ _ _ _).2.1] at hcalls
        have hone := (List.cons_eq_cons.mp hcalls).1
        have hsveq : sv = dfromPairs (locPairs pl st.parValue).1 :=
          (congrArg (fun t : ℚ × ℚ × Dict Value => t.2.2) hone).symm
        obtain ⟨hts, hst⟩ := postFm_state_stored _ _ _ _ _ _ hexn
        refine ⟨O 0 T (dfromPairs (locPairs pl st.parValue).1),
          (postFm_spec _ _ _ _ _ _).2.2.1, hts, ?_⟩
        intro k col hk hex hcont hsvk hcol
        rw [hsveq] at hsvk
        exact hst k col hk hex hcont hsvk hcol
    · by_cases hmode2 : mode ∈ contModes
      · by_cases h0 : st.prevFinalTime = 0
        · rw [simuFm_eq_cont0 hmode2 h0] at hcalls
          simp at hcalls
        · by_cases h1 : (delDerived pl (svi.map (fun p => p.2)) st.parValue
              st.parValue pl).2.2 = true
          · rw [simuFm_cont_exn1 hmode2 h0 h1] at hexn
            simp at hexn
          · have h1' := eq_false_of_ne_true h1
            by_cases h2 : (derivedPairs svi st.stateValue).2 = true
            · rw [simuFm_cont_exn2 hmode2 h0 h1' h2] at hexn
              simp at hexn
            · have h2' := eq_false_of_ne_true h2
              by_cases h3 : (locPairs
                  (dfromPairs
                    ((delDerived pl (svi.map (fun p => p.2)) st.parValue
                        st.parValue pl).2.1
                      ++ dfromPairs ((svi.map (fun p => p.2)).map (fun x => (x, x)))))
                  (dfromPairs
                    ((delDerived pl (svi.map (fun p => p.2)) st.parValue
                        st.parValue pl).1
                      ++ (derivedPairs svi st.stateValue).1))).2 = true
              · rw [simuFm_cont_exn3 hmode2 h0 h1' h2' h3] at hexn
                simp at hexn
              · have h3' := eq_false_of_ne_true h3
                rw [simuFm_cont_success hmode2 h0 h1' h2' h3'] at hexn hcalls ⊢
                rw [(postFm_spec _ _ _ _ _ _).2.1] at hcalls
                have hone := (List.cons_eq_cons.mp hcalls).1
                have hsveq : sv = dfromPairs (locPairs
                    (dfromPairs
                      ((delDerived pl (svi.map (fun p => p.2)) st.parValue
                          st.parValue pl).2.1
                        ++ dfromPairs ((svi.map (fun p => p.2)).map (fun x => (x, x)))))
                    (dfromPairs
                      ((delDerived pl (svi.map (fun p => p.2)) st.parValue
                          st.parValue pl).1
                        ++ (derivedPairs svi st.stateValue).1))).1 :=
                  (congrArg (fun t : ℚ × ℚ × Dict Value => t.2.2) hone).symm
                obtain ⟨hts, hst⟩ := postFm_state_stored _ _ _ _ _ _ hexn
                refine ⟨_, (postFm_spec _ _ _ _ _ _).2.2.1, hts, ?_⟩
                intro k col hk hex hcont hsvk hcol
                rw [hsveq] at hsvk
                exact hst k col hk hex hcont hsvk hcol
      · rw [simuFm_eq_badmode hmode1 hmode2] at hcalls
        simp at hcalls

/-- Witness for C5 at concrete fresh runs of both variants. -/
theorem claim5_witness :
    dget (simuPy pyFix parLocationD
        ⟨mFix, [("mum", Value.num 0)], [("bioreactor.V", Value.num 7)], 0, 12⟩
        12 "init").st.stateDict "bioreactor.V"
      = dget (simuPy pyFix parLocationD
        ⟨mFix, [("mum", Value.num 0)], [("bioreactor.V", Value.num 7)], 0, 12⟩
        12 "init").st.model.vals "bioreactor.V" ∧
    (simuPy pyFix parLocationD
        ⟨mFix, [("mum", Value.num 0)], [("bioreactor.V", Value.num 7)], 0, 12⟩
        12 "init").st.prevFinalTime
      = (simuPy pyFix parLocationD
        ⟨mFix, [("mum", Value.num 0)], [("bioreactor.V", Value.num 7)], 0, 12⟩
        12 "init").st.model.time ∧
    dget (simuFm varsFix fmOFix plotFix parLocationD []
        ⟨[("mum", Value.num 0)], [("bioreactor.V", Value.num 1)], 0⟩
        12 "init").st.stateValue "bioreactor.V"
      = some (Value.num 5) := by
  have h1 := claim5_store_final_state.1 pyFix parLocationD
    ⟨mFix, [("mum", Value.num 0)], [("bioreactor.V", Value.num 7)], 0, 12⟩ 12 "init"
    (by decide) (by decide)
  have h2 := claim5_store_final_state.2 varsFix fmOFix plotFix parLocationD []
    ⟨[("mum", Value.num 0)], [("bioreactor.V", Value.num 1)], 0⟩ 12 "init"
    (by decide) 0 12 (dfromPairs (locPairs parLocationD [("mum", Value.num 0)]).1)
    (by decide)
  rcases h2 with ⟨sr, hsr, hts, hst⟩
  have hsrlit : (simuFm varsFix fmOFix plotFix parLocationD []
      ⟨[("mum", Value.num 0)], [("bioreactor.V", Value.num 1)], 0⟩ 12 "init").simRes
      = some ⟨[0, 12], [("bioreactor.V", [Value.num 4, Value.num 5])]⟩ := by decide
  rw [hsrlit] at hsr
  have hsreq : sr = ⟨[0, 12], [("bioreactor.V", [Value.num 4, Value.num 5])]⟩ :=
    Option.some.inj hsr.symm
  subst hsreq
  have hv := hst "bioreactor.V" [Value.num 4, Value.num 5] (by decide) (by decide)
    (by decide) (by decide) (by decide)
  exact ⟨h1.1 "bioreactor.V" (by decide), h1.2, by rw [hv]; rfl⟩

/-! ## The continuation override merge (claim C10) -/

theorem svild_entry {dv : List String} {x : String × String}
    (hx : x ∈ dfromPairs (dv.map (fun y => (y, y)))) : x.2 = x.1 := by
  have h1 := mem_dfromPairs_get hx
  have h2 := dget_dfromPairs_mem h1
  rcases List.mem_map.mp h2 with ⟨y, _, hxy⟩
  have ha : y = x.1 := congrArg Prod.fst hxy
  have hb : y = x.2 := congrArg Prod.snd hxy
  rw [← ha, ← hb]

theorem svild_has {dv : List String} {q : String} :
    dhas (dfromPairs (dv.map (fun y => (y, y)))) q = true ↔ q ∈ dv := by
  rw [dhas_dfromPairs, dhas_iff_mem]
  constructor
  · rintro ⟨w, hw⟩
    rcases List.mem_map.mp hw with ⟨y, hy, hxy⟩
    have : y = q := congrArg Prod.fst hxy
    rwa [← this]
  · intro hq
    exact ⟨q, List.mem_map.mpr ⟨q, hq, rfl⟩⟩

/-- The merged location table `parLocationMod` maps every derived path to
itself: the identity dictionary `stateValueInitialLoc` is merged in last and
wins. -/
theorem plMod_at_derived {plr : Dict String} {dv : List String} {q : String}
    (hq : q ∈ dv) :
    dget (dfromPairs (plr ++ dfromPairs (dv.map (fun y => (y, y))))) q = some q := by
  rw [dfromPairs, dupdate_append]
  have hconst : ∀ x ∈ dfromPairs (dv.map (fun y => (y, y))), x.1 = q → x.2 = q := by
    intro x hx hxq
    rw [svild_entry hx, hxq]
  rw [dget_dupdate_const hconst, if_pos (svild_has.mpr hq)]

/-- Outside the derived paths, `parLocationMod` falls back to the surviving
plain location table. -/
theorem plMod_at_other {plr : Dict String} {dv : List String} {q : String}
    (hq : q ∉ dv) :
    dget (dfromPairs (plr ++ dfromPairs (dv.map (fun y => (y, y))))) q
      = dget (dfromPairs plr) q := by
  rw [dfromPairs, dupdate_append]
  have hconst : ∀ x ∈ dfromPairs (dv.map (fun y => (y, y))), x.1 = q → x.2 = q := by
    intro x hx hxq
    rw [svild_entry hx, hxq]
  rw [dget_dupdate_const hconst, if_neg (fun htrue => hq (svild_has.mp htrue))]
  rfl

/-- In `parValueMod`, the state-derived pairs are merged in last, so a
derived path holds the stored state value, regardless of any surviving plain
parameter. -/
theorem pvMod_at_derived {pvr : Dict Value} {svi : Dict String} {sv : Dict Value}
    {k p : String} {v : Value}
    (hsvnd : (dkeys sv).Nodup)
    (h2 : (derivedPairs svi sv).2 = false)
    (hk : dget svi k = some p) (hv : dget sv k = some v)
    (hinj : ∀ e ∈ sv, ¬ e.1 = k → ¬ dget svi e.1 = some p) :
    dget (dfromPairs (pvr ++ (derivedPairs svi sv).1)) p = some v := by
  rw [dfromPairs, dupdate_append]
  have hconst : ∀ x ∈ (derivedPairs svi sv).1, x.1 = p → x.2 = v := by
    intro x hx hxp
    rcases derivedPairs_of_mem hx with ⟨k2, w2, hk2, hsk2, hww2⟩
    have hk2k : k2 = k := by
      by_contra hne
      exact hinj (k2, w2) hk2 (by simpa using hne) (by rw [hsk2, hxp])
    rw [hk2k] at hk2
    have hg : dget sv k = some w2 := dget_eq_some_of_mem_nodup hsvnd hk2
    rw [hv] at hg
    rw [hww2]
    exact (Option.some.inj hg).symm
  have hhas : dhas (derivedPairs svi sv).1 p = true :=
    (dhas_iff_mem _ _).mpr ⟨v, derivedPairs_mem_of h2 (dget_mem hv) hk⟩
  rw [dget_dupdate_const hconst, if_pos hhas]

/-- The final `start_values` of a continuation run holds, at a state's
derived initial-value path, the stored state value — superseding any
user-set parameter that pointed at the same path. -/
theorem contStartValues_supersedes (pl svi : Dict String) (pv sv : Dict Value)
    (k p : String) (v : Value)
    (hplnd : (dkeys pl).Nodup)
    (hsvnd : (dkeys sv).Nodup)
    (hk : dget svi k = some p)
    (hv : dget sv k = some v)
    (hinj : ∀ e ∈ sv, ¬ e.1 = k → ¬ dget svi e.1 = some p)
    (h1 : (delDerived pl (svi.map (fun q => q.2)) pv pv pl).2.2 = false)
    (h2 : (derivedPairs svi sv).2 = false)
    (h3 : (locPairs
        (dfromPairs ((delDerived pl (svi.map (fun q => q.2)) pv pv pl).2.1
          ++ dfromPairs ((svi.map (fun q => q.2)).map (fun x => (x, x)))))
        (dfromPairs ((delDerived pl (svi.map (fun q => q.2)) pv pv pl).1
          ++ (derivedPairs svi sv).1))).2 = false) :
    dget (dfromPairs (locPairs
        (dfromPairs ((delDerived pl (svi.map (fun q => q.2)) pv pv pl).2.1
          ++ dfromPairs ((svi.map (fun q => q.2)).map (fun x => (x, x)))))
        (dfromPairs ((delDerived pl (svi.map (fun q => q.2)) pv pv pl).1
          ++ (derivedPairs svi sv).1))).1) p = some v := by
  have hpdv : p ∈ svi.map (fun q => q.2) := List.mem_map.mpr ⟨(k, p), dget_mem hk, rfl⟩
  have hconstLP : ∀ x ∈ (locPairs
      (dfromPairs ((delDerived pl (svi.map (fun q => q.2)) pv pv pl).2.1
        ++ dfromPairs ((svi.map (fun q => q.2)).map (fun x => (x, x)))))
      (dfromPairs ((delDerived pl (svi.map (fun q => q.2)) pv pv pl).1
        ++ (derivedPairs svi sv).1))).1, x.1 = p → x.2 = v := by
    intro x hx hxp
    rcases locPairs_of_mem hx with ⟨q, w, hqw, hq, hxw⟩
    rw [hxp] at hq
    by_cases hqdv : q ∈ svi.map (fun q => q.2)
    · have hqq : dget (dfromPairs ((delDerived pl (svi.map (fun q => q.2)) pv pv pl).2.1
          ++ dfromPairs ((svi.map (fun q => q.2)).map (fun x => (x, x))))) q = some q :=
        plMod_at_derived hqdv
      rw [hqq] at hq
      have hqp : q = p := Option.some.inj hq
      rw [hqp] at hqw
      have hgot := mem_dfromPairs_get hqw
      have hval : dget (dfromPairs ((delDerived pl (svi.map (fun q => q.2)) pv pv pl).1
          ++ (derivedPairs svi sv).1)) p = some v :=
        pvMod_at_derived hsvnd h2 hk hv hinj
      rw [hval] at hgot
      rw [hxw]
      exact (Option.some.inj hgot).symm
    · have hqoth : dget (dfromPairs ((delDerived pl (svi.map (fun q => q.2)) pv pv pl).2.1
          ++ dfromPairs ((svi.map (fun q => q.2)).map (fun x => (x, x))))) q
            = dget (dfromPairs (delDerived pl (svi.map (fun q => q.2)) pv pv pl).2.1) q :=
        plMod_at_other hqdv
      rw [hqoth] at hq
      have hmemplr : (q, p) ∈ (delDerived pl (svi.map (fun q => q.2)) pv pv pl).2.1 :=
        dget_dfromPairs_mem hq
      have hhasplrq : dhas (delDerived pl (svi.map (fun q => q.2)) pv pv pl).2.1 q = true :=
        (dhas_iff_mem _ _).mpr ⟨p, hmemplr⟩
      have hplrnd : (dkeys (delDerived pl (svi.map (fun q => q.2)) pv pv pl).2.1).Nodup :=
        delDerived_plr_nodup hplnd
      have hgetplr : dget (delDerived pl (svi.map (fun q => q.2)) pv pv pl).2.1 q
          = some p := dget_eq_some_of_mem_nodup hplrnd hmemplr
      have hplq : dget pl q = some p := by
        rw [← delDerived_get_plr hhasplrq]
        exact hgetplr
      have hhaspvm : dhas ((delDerived pl (svi.map (fun q => q.2)) pv pv pl).1
          ++ (derivedPairs svi sv).1) q = true := by
        have hh : dhas (dfromPairs ((delDerived pl (svi.map (fun q => q.2)) pv pv pl).1
            ++ (derivedPairs svi sv).1)) q = true := (dhas_iff_mem _ _).mpr ⟨w, hqw⟩
        rwa [dhas_dfromPairs] at hh
      rw [dhas_append] at hhaspvm
      rcases Bool.or_eq_true_iff.mp hhaspvm with hc | hc
      · have hq_pv : dhas pv q = true := delDerived_pvr_sub hc
        rcases (dhas_iff_mem _ _).mp hq_pv with ⟨w1, hw1⟩
        have hsur := delDerived_survivor_loc h1 hw1 hplq hc
        exact absurd hpdv hsur
      · rcases (dhas_iff_mem _ _).mp hc with ⟨w0, hw0⟩
        rcases derivedPairs_of_mem hw0 with ⟨k2, w2, hk2, hsk2, _⟩
        have : q ∈ svi.map (fun q => q.2) := List.mem_map.mpr ⟨(k2, q), dget_mem hsk2, rfl⟩
        exact absurd this hqdv
  have hhasLP : dhas (locPairs
      (dfromPairs ((delDerived pl (svi.map (fun q => q.2)) pv pv pl).2.1
        ++ dfromPairs ((svi.map (fun q => q.2)).map (fun x => (x, x)))))
      (dfromPairs ((delDerived pl (svi.map (fun q => q.2)) pv pv pl).1
        ++ (derivedPairs svi sv).1))).1 p = true := by
    have hdps_has : dhas (derivedPairs svi sv).1 p = true :=
      (dhas_iff_mem _ _).mpr ⟨v, derivedPairs_mem_of h2 (dget_mem hv) hk⟩
    have hhaspvm : dhas (dfromPairs ((delDerived pl (svi.map (fun q => q.2)) pv pv pl).1
        ++ (derivedPairs svi sv).1)) p = true := by
      rw [dhas_dfromPairs, dhas_append, hdps_has]
      simp
    rcases (dhas_iff_mem _ _).mp hhaspvm with ⟨w0, hw0⟩
    have hplp : dget (dfromPairs ((delDerived pl (svi.map (fun q => q.2)) pv pv pl).2.1
        ++ dfromPairs ((svi.map (fun q => q.2)).map (fun x => (x, x))))) p = some p :=
      plMod_at_derived hpdv
    exact (dhas_iff_mem _ _).mpr ⟨w0, locPairs_mem_of h3 hw0 hplp⟩
  rw [dfromPairs, dget_dupdate_const hconstLP, if_pos hhasLP]

/-- Claim C10: in continuation mode the stored final state value supersedes a
user-set parameter aimed at the same model path.  In the fmpy variant the
parameter entry is deleted before merging and the handed-over `start_values`
carries the state value at the derived path; in the pyfmi variant the
state-derived `model.set` calls happen after the parameter ones, so the model
handed to simulate holds the state value at the derived path. -/
theorem claim10_state_supersedes :
    (∀ (vars : List VarDecl) (O : ℚ → ℚ → Dict Value → SimRes) (P : SimRes → Bool)
       (pl svi : Dict String) (st : FmState) (T : ℚ) (mode : String)
       (k p : String) (v : Value),
       mode ∈ contModes → ¬ st.prevFinalTime = 0 →
       (dkeys pl).Nodup →
       (∀ e ∈ st.parValue, (dget pl e.1).isSome = true) →
       (dkeys st.stateValue).Nodup →
       (∀ e ∈ st.stateValue, (dget svi e.1).isSome = true) →
       dget svi k = some p →
       dget st.stateValue k = some v →
       (∀ e ∈ st.stateValue, ¬ e.1 = k → ¬ dget svi e.1 = some p) →
       (∀ a b sv, (simuFm vars O P pl svi st T mode).calls = [(a, b, sv)] →
          dget sv p = some v) ∧
       (∀ j w loc, (j, w) ∈ st.parValue → dget pl j = some loc → loc = p →
          dhas (delDerived pl (svi.map (fun q => q.2)) st.parValue st.parValue pl).1 j
            = false)) ∧
    (∀ (F : PyFMI) (pl : Dict String) (st : PyState) (T : ℚ) (mode : String)
       (k : String) (pch : List Char) (v : Value),
       (st.parDict.filter (fun p => isMissing p.2)).isEmpty = true →
       mode ∈ contModes → ¬ st.prevFinalTime = 0 →
       (setPars (F.reset st.model) pl st.parDict).2 = false →
       (∀ e ∈ st.stateDict, ∃ q, svikey e.1.toList = Except.ok (some q)) →
       (k, v) ∈ st.stateDict →
       svikey k.toList = Except.ok (some pch) →
       (∀ e ∈ st.stateDict, derivesTo e.1 (String.mk pch) = true → e.2 = v) →
       ∀ m s f, (simuPy F pl st T mode).calls = [(m, s, f)] →
         dget m.vals (String.mk pch) = some v) := by
  constructor
  · intro vars O P pl svi st T mode k p v hmode h0 hplnd hlocs hsvnd hsvi hk hv hinj
    have hpdv : p ∈ svi.map (fun q => q.2) := List.mem_map.mpr ⟨(k, p), dget_mem hk, rfl⟩
    have h1 : (delDerived pl (svi.map (fun q => q.2)) st.parValue st.parValue pl).2.2
        = false := delDerived_exn_false hlocs _ _
    have h2 : (derivedPairs svi st.stateValue).2 = false := derivedPairs_exn_false hsvi
    have h3 : (locPairs
        (dfromPairs ((delDerived pl (svi.map (fun q => q.2)) st.parValue
            st.parValue pl).2.1
          ++ dfromPairs ((svi.map (fun q => q.2)).map (fun x => (x, x)))))
        (dfromPairs ((delDerived pl (svi.map (fun q => q.2)) st.parValue
            st.parValue pl).1
          ++ (derivedPairs svi st.stateValue).1))).2 = false := by
      apply locPairs_exn_false
      intro e he
      have hhase : dhas ((delDerived pl (svi.map (fun q => q.2)) st.parValue
          st.parValue pl).1 ++ (derivedPairs svi st.stateValue).1) e.1 = true := by
        have hh : dhas (dfromPairs ((delDerived pl (svi.map (fun q => q.2)) st.parValue
            st.parValue pl).1 ++ (derivedPairs svi st.stateValue).1)) e.1 = true :=
          (dhas_iff_mem _ _).mpr ⟨e.2, by
            have : e = (e.1, e.2) := by cases e; rfl
            rwa [this] at he⟩
        rwa [dhas_dfromPairs] at hh
      rw [dhas_append] at hhase
      rcases Bool.or_eq_true_iff.mp hhase with hc | hc
      · have hq_pv : dhas st.parValue e.1 = true := delDerived_pvr_sub hc
        rcases (dhas_iff_mem _ _).mp hq_pv with ⟨w1, hw1⟩
        have hploc := hlocs (e.1, w1) hw1
        rcases Option.isSome_iff_exists.mp hploc with ⟨loc, hloc⟩
        have hplq : dhas pl e.1 = true := by
          rw [dhas_eq_isSome, hloc]
          rfl
        have hjoint := delDerived_joint hc hplq
        have hplm : dhas (dfromPairs ((delDerived pl (svi.map (fun q => q.2)) st.parValue
            st.parValue pl).2.1
            ++ dfromPairs ((svi.map (fun q => q.2)).map (fun x => (x, x))))) e.1
            = true := by
          rw [dhas_dfromPairs, dhas_append, hjoint]
          simp
        rw [dhas_eq_isSome] at hplm
        exact hplm
      · rcases (dhas_iff_mem _ _).mp hc with ⟨w0, hw0⟩
        rcases derivedPairs_of_mem hw0 with ⟨k2, w2, hk2, hsk2, _⟩
        have hmem : e.1 ∈ svi.map (fun q => q.2) :=
          List.mem_map.mpr ⟨(k2, e.1), dget_mem hsk2, rfl⟩
        rw [plMod_at_derived hmem]
        rfl
    refine ⟨?_, ?_⟩
    · intro a b sv hcalls
      rw [simuFm_cont_success hmode h0 h1 h2 h3] at hcalls
      rw [(postFm_spec _ _ _ _ _ _).2.1] at hcalls
      have hone := (List.cons_eq_cons.mp hcalls).1
      have hsveq : sv = dfromPairs (locPairs
          (dfromPairs ((delDerived pl (svi.map (fun q => q.2)) st.parValue
              st.parValue pl).2.1
            ++ dfromPairs ((svi.map (fun q => q.2)).map (fun x => (x, x)))))
          (dfromPairs ((delDerived pl (svi.map (fun q => q.2)) st.parValue
              st.parValue pl).1
            ++ (derivedPairs svi st.stateValue).1))).1 :=
        (congrArg (fun t : ℚ × ℚ × Dict Value => t.2.2) hone).symm
      rw [hsveq]
      exact contStartValues_supersedes pl svi st.parValue st.stateValue k p v
        hplnd hsvnd hk hv hinj h1 h2 h3
    · intro j w loc hj hjl hlp
      exact delDerived_deletes h1 hj hjl (hlp ▸ hpdv)
  · intro F pl st T mode k pch v hm hmode h0 hsp hall hkmem hkder hvals m s f hcalls
    have hss : (setStatesPy (setPars (F.reset st.model) pl st.parDict).1
        st.stateDict).2.2 = false := by
      have := setStatesPy_all_ok hall (setPars (F.reset st.model) pl st.parDict).1
      rw [this]
    rw [simuPy_cont_success hm hmode h0 hsp hss] at hcalls
    rw [(postPy_spec _ _ _ _ _).2.1] at hcalls
    have hone := (List.cons_eq_cons.mp hcalls).1
    have hmeq : m = (setStatesPy (setPars (F.reset st.model) pl st.parDict).1
        st.stateDict).1 :=
      (congrArg (fun t : Model × Option ℚ × ℚ => t.1) hone).symm
    rw [hmeq]
    rw [setStatesPy_get hall hvals]
    have hany : st.stateDict.any (fun e => derivesTo e.1 (String.mk pch)) = true := by
      rw [List.any_eq_true]
      refine ⟨(k, v), hkmem, ?_⟩
      unfold derivesTo
      rw [hkder]
      simp
    rw [if_pos hany]

/-- Witness for C10 at concrete continuation runs of both variants: the
parameter `V_start` (value 5, path `bioreactor.V_start`) is superseded by the
stored state `bioreactor.V = 7`. -/
theorem claim10_witness :
    dget ((simuFm varsFix fmOFix plotFix
        [("V_start", "bioreactor.V_start"), ("mum", "bioreactor.culture.mum")]
        [("bioreactor.V", "bioreactor.V_start")]
        ⟨[("V_start", Value.num 5), ("mum", Value.num 0)],
         [("bioreactor.V", Value.num 7)], 5⟩ 12 "cont").calls.headD
        (0, 0, [])).2.2 "bioreactor.V_start" = some (Value.num 7) ∧
    dhas (delDerived
        [("V_start", "bioreactor.V_start"), ("mum", "bioreactor.culture.mum")]
        (([("bioreactor.V", "bioreactor.V_start")] : Dict String).map (fun q => q.2))
        [("V_start", Value.num 5), ("mum", Value.num 0)]
        [("V_start", Value.num 5), ("mum", Value.num 0)]
        [("V_start", "bioreactor.V_start"), ("mum", "bioreactor.culture.mum")]).1
      "V_start" = false ∧
    dget ((simuPy pyFix parLocationD
        ⟨mFix, [("V_start", Value.num 5), ("mum", Value.num 0)],
         [("bioreactor.V", Value.num 7)], 5, 12⟩ 12 "cont").calls.headD
        (mFix, Option.none, 0)).1.vals "bioreactor.V_start" = some (Value.num 7) := by
  have h := claim10_state_supersedes.1 varsFix fmOFix plotFix
    [("V_start", "bioreactor.V_start"), ("mum", "bioreactor.culture.mum")]
    [("bioreactor.V", "bioreactor.V_start")]
    ⟨[("V_start", Value.num 5), ("mum", Value.num 0)],
     [("bioreactor.V", Value.num 7)], 5⟩ 12 "cont"
    "bioreactor.V" "bioreactor.V_start" (Value.num 7)
    (by decide) (by decide) (by decide) (by decide) (by decide) (by decide)
    (by decide) (by decide) (by decide)
  have hpy := claim10_state_supersedes.2 pyFix parLocationD
    ⟨mFix, [("V_start", Value.num 5), ("mum", Value.num 0)],
     [("bioreactor.V", Value.num 7)], 5, 12⟩ 12 "cont"
    "bioreactor.V" "bioreactor.V_start".toList (Value.num 7)
    (by decide) (by decide) (by decide) (by decide)
    (by intro e he
        refine ⟨"bioreactor.V_start".toList, ?_⟩
        have : e = ("bioreactor.V", Value.num 7) := by simpa using he
        rw [this]
        rfl)
    (by simp) rfl
    (by intro e he hd
        have : e = ("bioreactor.V", Value.num 7) := by simpa using he
        rw [this])
  rcases hcf : (simuFm varsFix fmOFix plotFix
      [("V_start", "bioreactor.V_start"), ("mum", "bioreactor.culture.mum")]
      [("bioreactor.V", "bioreactor.V_start")]
      ⟨[("V_start", Value.num 5), ("mum", Value.num 0)],
       [("bioreactor.V", Value.num 7)], 5⟩ 12 "cont").calls with _ | ⟨c, rest⟩
  · exact absurd hcf (by decide)
  · rcases hrest : rest with _ | ⟨c2, rest2⟩
    · rcases hcp : (simuPy pyFix parLocationD
          ⟨mFix, [("V_start", Value.num 5), ("mum", Value.num 0)],
           [("bioreactor.V", Value.num 7)], 5, 12⟩ 12 "cont").calls with _ | ⟨d, restp⟩
      · exact absurd hcp (by decide)
      · rcases hrestp : restp with _ | ⟨d2, restp2⟩
        · refine ⟨?_, by decide, ?_⟩
          · have hc : (simuFm varsFix fmOFix plotFix
                [("V_start", "bioreactor.V_start"), ("mum", "bioreactor.culture.mum")]
                [("bioreactor.V", "bioreactor.V_start")]
                ⟨[("V_start", Value.num 5), ("mum", Value.num 0)],
                 [("bioreactor.V", Value.num 7)], 5⟩ 12 "cont").calls
                = [(c.1, c.2.1, c.2.2)] := by
              rw [hcf, hrest]
            exact h.1 c.1 c.2.1 c.2.2 hc
          · have hc : (simuPy pyFix parLocationD
                ⟨mFix, [("V_start", Value.num 5), ("mum", Value.num 0)],
                 [("bioreactor.V", Value.num 7)], 5, 12⟩ 12 "cont").calls
                = [(d.1, d.2.1, d.2.2)] := by
              rw [hcp, hrestp]
            exact hpy d.1 d.2.1 d.2.2 hc
        · exfalso
          have hlen : (simuPy pyFix parLocationD
              ⟨mFix, [("V_start", Value.num 5), ("mum", Value.num 0)],
               [("bioreactor.V", Value.num 7)], 5, 12⟩ 12 "cont").calls.length
              = 1 := by decide
          rw [hcp, hrestp] at hlen
          simp at hlen
    · exfalso
      have hlen : (simuFm varsFix fmOFix plotFix
          [("V_start", "bioreactor.V_start"), ("mum", "bioreactor.culture.mum")]
          [("bioreactor.V", "bioreactor.V_start")]
          ⟨[("V_start", Value.num 5), ("mum", Value.num 0)],
           [("bioreactor.V", Value.num 7)], 5⟩ 12 "cont").calls.length = 1 := by decide
      rw [hcf, hrest] at hlen
      simp at hlen

end BPLExplore
